import Mathlib

/-!
Verification development for the talogo task-time tracker.

The Go source is shallowly embedded: timestamps are modelled as integer
nanosecond counts since the Unix epoch together with a fixed-offset zone
(the only kind of zone the log format records), `time.Duration` values as
integer nanosecond counts, CSV records as lists of strings, and the CSV
log file as a list of records.  The civil-calendar arithmetic below mirrors
what Go's `time` package computes for `time.Date`, `Time.Date` and
fixed-offset formatting (proleptic Gregorian calendar).
-/

namespace Talogo

/-- Nanoseconds per second, Go's `time.Second`. -/
def nsPerSec : Int := 1000000000

/-- Nanoseconds per hour, Go's `time.Hour`. -/
def nsPerHour : Int := 3600000000000

/-- Nanoseconds per day (24h), the length of a civil day at a fixed offset. -/
def nsPerDay : Int := 86400000000000

/-- Seconds per day. -/
def secPerDay : Int := 86400

/-- Day count since the Unix epoch to civil (year, month, day), proleptic
Gregorian; this is the conversion Go's `time.Time.Date` performs.  Uses the
standard 400-year-era decomposition. -/
def civilFromDays (z : Int) : Int × Int × Int :=
  let zs := z + 719468
  let era := zs / 146097
  let doe := zs - era * 146097
  let yoe := (doe - doe / 1460 + doe / 36524 - doe / 146096) / 365
  let doy := doe - (365 * yoe + yoe / 4 - yoe / 100)
  let mp := (5 * doy + 2) / 153
  let d := doy - (153 * mp + 2) / 5 + 1
  let m := if mp < 10 then mp + 3 else mp - 9
  (yoe + era * 400 + (if m ≤ 2 then 1 else 0), m, d)

/-- Civil (year, month, day) to day count since the Unix epoch, proleptic
Gregorian; this is the conversion Go's `time.Date` performs. -/
def daysFromCivil (y m d : Int) : Int :=
  let ya := y - (if m ≤ 2 then 1 else 0)
  let era := ya / 400
  let yoe := ya - era * 400
  let mp := if 2 < m then m - 3 else m + 9
  let doy := (153 * mp + 2) / 5 + d - 1
  let doe := yoe * 365 + yoe / 4 - yoe / 100 + doy
  era * 146097 + doe - 719468

/-- Gregorian leap-year test, Go's `isLeap`. -/
def isLeap (y : Int) : Bool := y % 4 == 0 && (y % 100 != 0 || y % 400 == 0)

/-- Length of a civil month, as Go's `daysIn` computes it. -/
def daysInMonth (y m : Int) : Int :=
  if m = 2 then (if isLeap y then 29 else 28)
  else if m = 4 ∨ m = 6 ∨ m = 9 ∨ m = 11 then 30
  else 31

/-- Year-of-era estimator appearing inside `civilFromDays`. -/
def gdays (doe : Int) : Int := doe - doe / 1460 + doe / 36524 - doe / 146096

/-- First day-of-era of year-of-era `y`. -/
def yearStart (y : Int) : Int := 365 * y + y / 4 - y / 100

/-- One past the last day-of-era of year-of-era `y` (for `y = 399` that is
the era length 146097). -/
def yearEnd (y : Int) : Int := if y = 399 then 146097 else yearStart (y + 1)

/-- Leap test on the year-of-era index: year-of-era `y` spans 366 days
exactly when `y % 4 = 3` and it is not a skipped century year, or it is the
last year of the era. -/
def leapYoe (y : Int) : Bool := (y % 4 == 3 && y % 100 != 99) || y == 399

/-- Value of a decimal digit character, `none` for non-digits. -/
def digitVal? (c : Char) : Option Nat :=
  if 48 ≤ c.toNat ∧ c.toNat ≤ 57 then some (c.toNat - 48) else none

/-- Two-digit zero-padded decimal, as Go's `01`/`02`/`15`/`04`/`05` layout
verbs print a value below 100. -/
def pad2 (n : Nat) : List Char :=
  [Char.ofNat (48 + n / 10), Char.ofNat (48 + n % 10)]

/-- Four-digit zero-padded decimal, as Go's `2006` layout verb prints a year
in 0..9999. -/
def pad4 (n : Nat) : List Char := pad2 (n / 100) ++ pad2 (n % 100)

/-- Consume one expected separator character. -/
def expectChar (c : Char) : List Char → Option (List Char)
  | x :: rest => if x = c then some rest else none
  | [] => none

/-- Consume exactly two decimal digits. -/
def parse2 : List Char → Option (Nat × List Char)
  | a :: b :: rest => do
    let x ← digitVal? a
    let y ← digitVal? b
    pure (10 * x + y, rest)
  | _ => none

/-- Consume exactly four decimal digits. -/
def parse4 (cs : List Char) : Option (Nat × List Char) := do
  let (a, cs) ← parse2 cs
  let (b, cs) ← parse2 cs
  pure (100 * a + b, cs)

/-- Consume a run of decimal digits. -/
def takeDigits : List Char → List Nat × List Char
  | c :: cs =>
    match digitVal? c with
    | some d =>
      let r := takeDigits cs
      (d :: r.1, r.2)
    | none => ([], c :: cs)
  | [] => ([], [])

/-- Nanoseconds denoted by a fractional-second digit run; Go keeps at most
nine digits of precision. -/
def nsOfDigits (ds : List Nat) : Int :=
  ((ds.take 9).foldl (fun acc d => 10 * acc + d) 0 : Nat) * 10 ^ (9 - min ds.length 9)

/-- Optional fractional-second part: Go's RFC3339 parsing accepts `.` followed
by at least one digit after the seconds field. -/
def parseFrac : List Char → Option (Int × List Char)
  | '.' :: rest =>
    match takeDigits rest with
    | ([], _) => none
    | (ds, rest') => some (nsOfDigits ds, rest')
  | cs => some (0, cs)

/-- Numeric offset body `hh:mm` with Go's range checks (hours up to 23,
minutes up to 59), which must end the input; yields the offset in seconds. -/
def parseOffBody (cs : List Char) : Option Int := do
  let (oh, cs) ← parse2 cs
  let cs ← expectChar ':' cs
  let (om, cs) ← parse2 cs
  if cs = [] ∧ oh ≤ 23 ∧ om ≤ 59 then some ((oh : Int) * 3600 + (om : Int) * 60)
  else none

/-- Offset part of Go's `Z07:00` layout verb: `Z` for UTC or `±hh:mm`. -/
def parseOff : List Char → Option Int
  | ['Z'] => some 0
  | '+' :: rest => parseOffBody rest
  | '-' :: rest => (parseOffBody rest).map (fun v => -v)
  | _ => none

/-- Date part `2006-01-02` of the layout. -/
def parseDatePart (cs : List Char) : Option (Nat × Nat × Nat × List Char) := do
  let (y, cs) ← parse4 cs
  let cs ← expectChar '-' cs
  let (mo, cs) ← parse2 cs
  let cs ← expectChar '-' cs
  let (d, cs) ← parse2 cs
  pure (y, mo, d, cs)

/-- Clock part `15:04:05` of the layout. -/
def parseTimePart (cs : List Char) : Option (Nat × Nat × Nat × List Char) := do
  let (h, cs) ← parse2 cs
  let cs ← expectChar ':' cs
  let (mi, cs) ← parse2 cs
  let cs ← expectChar ':' cs
  let (sec, cs) ← parse2 cs
  pure (h, mi, sec, cs)

/-- Range validation and instant assembly: the checks Go's `time.Parse`
performs (month 1..12, day valid for the month and year with leap years,
hour below 24, minute and second below 60), then conversion of the local
calendar fields and offset to an absolute instant. -/
def mkInstant (y mo d h mi sec : Nat) (frac off : Int) : Option (Int × Int) :=
  if 1 ≤ mo ∧ mo ≤ 12 ∧ 1 ≤ d ∧ (d : Int) ≤ daysInMonth (y : Int) (mo : Int) ∧
      h ≤ 23 ∧ mi ≤ 59 ∧ sec ≤ 59 then
    let days := daysFromCivil (y : Int) (mo : Int) (d : Int)
    let ls : Int := days * secPerDay + (h : Int) * 3600 + (mi : Int) * 60 + (sec : Int)
    some (ls * nsPerSec + frac - off * nsPerSec, off)
  else none

/-- Character-level parser for Go's `time.RFC3339` layout
`2006-01-02T15:04:05Z07:00`: fixed-width fields, a `T` separator, an
optional fractional second, and a `Z` or `±hh:mm` offset ending the input.
Returns the absolute instant in nanoseconds since the Unix epoch together
with the offset in seconds. -/
def parseChars (cs : List Char) : Option (Int × Int) := do
  let (y, mo, d, cs) ← parseDatePart cs
  let cs ← expectChar 'T' cs
  let (h, mi, sec, cs) ← parseTimePart cs
  let (frac, cs) ← parseFrac cs
  let off ← parseOff cs
  mkInstant y mo d h mi sec frac off

/-- Go's `time.Parse(time.RFC3339, s)` on our timestamp model. -/
def parseRFC3339 (s : String) : Option (Int × Int) := parseChars s.data

/-- Characters of the `2006-01-02` date part for the local clock reading
determined by instant `t` (nanoseconds since epoch) and fixed offset `off`
(seconds). -/
def dateChars (t off : Int) : List Char :=
  let ls := (t + off * nsPerSec) / nsPerSec
  let c := civilFromDays (ls / secPerDay)
  pad4 c.1.toNat ++ '-' :: (pad2 c.2.1.toNat ++ '-' :: pad2 c.2.2.toNat)

/-- Characters of the `15:04:05` clock part. -/
def timeChars (t off : Int) : List Char :=
  let ls := (t + off * nsPerSec) / nsPerSec
  let sod := ls % secPerDay
  pad2 (sod / 3600).toNat ++ ':' :: (pad2 ((sod % 3600) / 60).toNat ++
    ':' :: pad2 (sod % 60).toNat)

/-- Characters of the `Z07:00` offset part: `Z` when the offset is zero,
otherwise a sign and `hh:mm`, exactly as Go prints it (sub-minute offset
parts are dropped by the layout). -/
def offsetChars (off : Int) : List Char :=
  if off = 0 then ['Z']
  else
    let mins := off.natAbs / 60
    (if off < 0 then '-' else '+') :: (pad2 (mins / 60) ++ ':' :: pad2 (mins % 60))

/-- Go's `t.Format(time.RFC3339)` on our timestamp model: local calendar
fields down to whole seconds plus the fixed offset; the layout has no
fractional-second verb, so sub-second precision is not emitted. -/
def formatRFC3339 (t off : Int) : String :=
  String.mk (dateChars t off ++ 'T' :: (timeChars t off ++ offsetChars off))

/-- Go's `t.Format("2006-01-02")` on our timestamp model, the key used to
group sessions by day. -/
def formatDateOnly (t off : Int) : String := String.mk (dateChars t off)

/-- Civil year of the local clock reading of instant `t` at offset `off`;
Go's `2006` layout verb prints exactly four digits for years 0..9999. -/
def localYear (t off : Int) : Int :=
  (civilFromDays ((t + off * nsPerSec) / nsPerSec / secPerDay)).1

/-- Local civil day index of instant `t` (ns since epoch) at fixed offset
`off` (seconds): the day count of the local clock reading, which is what
`currentStart.Date()` exposes in `logToCSV`. -/
def localDay (t off : Int) : Int := (t + off * nsPerSec) / nsPerDay

/-- Absolute instant of the first nanosecond of the next local day:
`time.Date(year, month, day+1, 0, 0, 0, 0, loc)` in `logToCSV`. -/
def nextDayStart (t off : Int) : Int :=
  (localDay t off + 1) * nsPerDay - off * nsPerSec

/-- The day-splitting loop of `logToCSV` (src/cmd/talogo/cmd/log.go): from
`cur`, compute the end of the current local day (`nextDay - 1ns`), clip it
to the session end, emit the segment, and continue from the next day start
unless the session end was reached.  `off` is the fixed zone offset in
seconds, `endT` the session end. -/
def splitGo (off endT cur : Int) : List (Int × Int) :=
  let nextDay := nextDayStart cur off
  let endOfDay := nextDay - 1
  let curEnd := if endT < endOfDay then endT else endOfDay
  if h : curEnd = endT then [(cur, curEnd)]
  else (cur, curEnd) :: splitGo off endT nextDay
termination_by (endT - cur).toNat
decreasing_by
  have hgt : cur < nextDayStart cur off := by
    simp only [nextDayStart, localDay, nsPerDay, nsPerSec]
    omega
  have h' : ¬(if endT < nextDayStart cur off - 1 then endT
      else nextDayStart cur off - 1) = endT := h
  rcases lt_or_le endT (nextDayStart cur off - 1) with hlt | hge
  · rw [if_pos hlt] at h'
    exact absurd rfl h'
  · rw [if_neg (by omega)] at h'
    omega

/-- Day splitter of `logToCSV`: segments of `[startT, endT]` that do not
cross a local-midnight boundary. -/
def splitDays (startT endT off : Int) : List (Int × Int) :=
  splitGo off endT startT

/-- Digit-run accumulator of `strconv.Atoi`. -/
def digitsAcc (acc : Nat) : List Char → Option Nat
  | [] => some acc
  | c :: rest =>
    match digitVal? c with
    | some d => digitsAcc (10 * acc + d) rest
    | none => none

/-- Nonempty all-digit run. -/
def digitsVal (cs : List Char) : Option Nat :=
  if cs = [] then none else digitsAcc 0 cs

/-- Wrapping 64-bit signed arithmetic: the value of an `int64` whose
unbounded-integer computation gave `x`. -/
def wrap64 (x : Int) : Int :=
  (x + 9223372036854775808) % 18446744073709551616 - 9223372036854775808

/-- Go's `strconv.Atoi`: optional sign then a nonempty digit run making up
the whole string, rejected when the value lies outside the 64-bit signed
range (Go returns `ErrRange` then, which the reader treats as a parse
failure and skips the row). -/
def atoi (s : String) : Option Int :=
  (match s.data with
  | '+' :: rest => (digitsVal rest).map (fun n => (n : Int))
  | '-' :: rest => (digitsVal rest).map (fun n => -(n : Int))
  | cs => (digitsVal cs).map (fun n => (n : Int))).bind
    (fun v => if -9223372036854775808 ≤ v ∧ v ≤ 9223372036854775807
      then some v else none)

/-- The in-memory aggregation node of `generateSummary`: `Name`,
`Duration`, `Children` (a name-keyed map, here an association list in
first-encounter order), and `TotalTime` (the field Go comments with
"Includes children"). -/
inductive TaskNode where
  | mk (name : String) (duration : Int) (children : List (String × TaskNode))
      (totalTime : Int)

/-- The `Name` field. -/
def TaskNode.name : TaskNode → String
  | .mk n _ _ _ => n

/-- The `Duration` field. -/
def TaskNode.duration : TaskNode → Int
  | .mk _ d _ _ => d

/-- The `Children` field. -/
def TaskNode.children : TaskNode → List (String × TaskNode)
  | .mk _ _ c _ => c

/-- The `TotalTime` field. -/
def TaskNode.totalTime : TaskNode → Int
  | .mk _ _ _ t => t

/-- A `map[string]*TaskNode` value, as an association list keyed by task
name in first-encounter order (Go map iteration order is arbitrary; every
place the program iterates one of these maps it sorts the keys first). -/
abbrev Forest := List (String × TaskNode)

/-- The `dailyTasks` value: date string to root forest. -/
abbrev DayMap := List (String × Forest)

/-- Map read, `m[k]`. -/
def getA {α : Type} : List (String × α) → String → Option α
  | [], _ => none
  | (k, v) :: rest, key => if k = key then some v else getA rest key

/-- Map write, `m[k] = v`: replaces in place or appends a new key. -/
def setA {α : Type} : List (String × α) → String → α → List (String × α)
  | [], key, v => [(key, v)]
  | (k, w) :: rest, key, v =>
    if k = key then (k, v) :: rest else (k, w) :: setA rest key v

/-- Keys of a map value. -/
def keysA {α : Type} (l : List (String × α)) : List String := l.map Prod.fst

/-- The title-chain walk of `generateSummary` (the `for j := 3; ...` loop):
stop at the first empty title, otherwise get-or-create the node for the
title, add the duration to both its `Duration` and its `TotalTime`, and
continue in its children with the remaining titles.  (The loop's second
`taskName == ""` check is unreachable after the break on the same
condition.) -/
def processChain (f : Forest) (titles : List String) (dur : Int) : Forest :=
  match titles with
  | [] => f
  | t :: rest =>
    if t = "" then f
    else
      let node := match getA f t with
        | some n => n
        | none => TaskNode.mk t 0 [] 0
      setA f t (TaskNode.mk t (node.duration + dur)
        (processChain node.children rest dur) (node.totalTime + dur))

/-- One diagnostic of `generateSummary`, carrying what its `Fprintf` call
prints. -/
inductive Diag where
  | tooFewFields (line : Nat) (found : Nat)
  | badStart (line : Nat) (field : String)
  | badDuration (line : Nat) (field : String)

/-- Processing of one data record by `generateSummary`: skip (with a
diagnostic) when there are fewer than 3 fields, when field 0 does not parse
as an RFC3339 timestamp, or when field 2 does not parse as an `int64`;
otherwise attribute `time.Duration(durationSeconds) * time.Second` — the
product computed in Go's wrapping 64-bit arithmetic — to the title chain of
fields 3.. under the record's local start date.  `i` is the record's index
in the file (0 is the header); diagnostics carry the printed line number
`i + 1`. -/
def processRecord (acc : DayMap) (i : Nat) (record : List String) :
    DayMap × Option Diag :=
  if record.length < 3 then (acc, some (.tooFewFields (i + 1) record.length))
  else
    match parseRFC3339 (record.getD 0 "") with
    | none => (acc, some (.badStart (i + 1) (record.getD 0 "")))
    | some (start, off) =>
      match atoi (record.getD 2 "") with
      | none => (acc, some (.badDuration (i + 1) (record.getD 2 "")))
      | some durSec =>
        let duration := wrap64 (durSec * nsPerSec)
        let dateStr := formatDateOnly start off
        let forest := match getA acc dateStr with
          | some f => f
          | none => []
        (setA acc dateStr (processChain forest (record.drop 3) duration), none)

/-- The record loop of `generateSummary` from record index `i`, collecting
the final forest and the emitted diagnostics in order. -/
def runRecords (acc : DayMap) (i : Nat) : List (List String) → DayMap × List Diag
  | [] => (acc, [])
  | r :: rest =>
    let step := processRecord acc i r
    let next := runRecords step.1 (i + 1) rest
    (next.1, match step.2 with
      | some d => d :: next.2
      | none => next.2)

/-- Aggregation of a whole CSV file (list of records, record 0 the header):
`generateSummary`'s grouping loop. -/
def aggregate (records : List (List String)) : DayMap :=
  (runRecords [] 1 (records.drop 1)).1

/-- Diagnostics the aggregation emits, in order. -/
def diagnostics (records : List (List String)) : List Diag :=
  (runRecords [] 1 (records.drop 1)).2

/-- Node lookup along a (date, title path): position addressed by the
chain walk. -/
def lookupNode (f : Forest) : List String → Option TaskNode
  | [] => none
  | [t] => getA f t
  | t :: rest => (getA f t).bind (fun n => lookupNode n.children rest)

/-- Lookup of a node by date and root-to-node title path in the aggregated
day map. -/
def lookupPath (m : DayMap) (date : String) (path : List String) :
    Option TaskNode :=
  (getA m date).bind (fun f => lookupNode f path)

/-- Hundredths of hours denoted by a duration, rounding to nearest: an
integer model of the value `%.2f` prints for `Duration.Hours()` (binary
floating-point rounding of the printed digits is outside this embedding's
scope; on the whole-centihour values the program's tests exercise the two
agree exactly). -/
def centiHours (d : Int) : Int := (d * 100 + nsPerHour / 2) / nsPerHour

/-- Decimal rendering of `%.2f` from a centi-hours count. -/
def fmtHours (d : Int) : String :=
  let c := centiHours d
  let s := String.mk (Nat.toDigits 10 (c.natAbs / 100) ++ '.' ::
    pad2 (c.natAbs % 100))
  if c < 0 then "-" ++ s else s

/-- Sum of root `TotalTime` values for a day (Go sums the float hour
values of the sorted roots; integer summation before conversion is
order-independent and agrees on exact values). -/
def sumTotalTime (tasks : Forest) : Int :=
  (tasks.map (fun p => p.2.totalTime)).sum

mutual

/-- `printSubtasks`: nothing for an empty map, otherwise each entry in
sorted key order. -/
def renderSubtasks (tasks : Forest) (indent : Nat) : String :=
  if tasks.isEmpty then ""
  else renderPairs (tasks.insertionSort (fun a b => a.1 ≤ b.1)) indent
termination_by (sizeOf tasks, 1)
decreasing_by
  have hs : sizeOf (tasks.insertionSort (fun a b => a.1 ≤ b.1)) = sizeOf tasks :=
    List.Perm.sizeOf_eq_sizeOf (List.perm_insertionSort _ tasks)
  rw [hs]
  exact Prod.Lex.right _ (by omega)

/-- Loop body of `printSubtasks`: print `indent` spaces, the task name, its
`Duration` in hours, then its children two spaces deeper. -/
def renderPairs (l : Forest) (indent : Nat) : String :=
  match l with
  | [] => ""
  | (k, tk) :: rest =>
    String.mk (List.replicate indent ' ') ++ k ++ ": " ++
      fmtHours tk.duration ++ " hs\n" ++
      renderSubtasks tk.children (indent + 2) ++ renderPairs rest indent
termination_by (sizeOf l, 0)
decreasing_by
  · obtain ⟨n, d, c, t⟩ := tk
    apply Prod.Lex.left
    simp [TaskNode.children] <;> omega
  · apply Prod.Lex.left
    simp <;> omega

end

/-- One date block of the report: the date line, the day total (the sum of
root `TotalTime` values, which Go accumulates in float hours over the
sorted roots before printing), then each root task in sorted order with its
`TotalTime` and its children via `printSubtasks` at indent 4, and a blank
line. -/
def renderDate (m : DayMap) (date : String) : String :=
  match getA m date with
  | none => ""
  | some tasks =>
    let sorted := tasks.insertionSort (fun a b => a.1 ≤ b.1)
    "Date: " ++ date ++ "\nTotal: " ++ fmtHours (sumTotalTime tasks) ++
      " hs\n" ++
      String.join (sorted.map (fun p =>
        "  " ++ p.1 ++ ": " ++ fmtHours p.2.totalTime ++ " hs\n" ++
        renderSubtasks p.2.children 4)) ++ "\n"

/-- The whole report `generateSummary` prints on standard output: the
no-data message when only a header (or nothing) is present, otherwise one
block per date in sorted date order (lexicographic, which is chronological
for `YYYY-MM-DD` keys). -/
def render (records : List (List String)) : String :=
  if records.length ≤ 1 then "No data in CSV file (only header or empty)\n"
  else
    String.join (((keysA (aggregate records)).insertionSort
      (fun a b => a ≤ b)).map (renderDate (aggregate records)))

/-- Header row `logToCSV` writes to an empty file:
`start_time,end_time,title1..titleN`. -/
def headerRow (maxTitles : Nat) : List String :=
  "start_time" :: "end_time" ::
    (List.range maxTitles).map (fun i => "title" ++ toString (i + 1))

/-- Declared title-column count of a file's header (`len(headers) - 2`). -/
def headerTitleCount (file : List (List String)) : Int :=
  ((file.headD []).length : Int) - 2

/-- The append path of `logToCSV` (src/cmd/talogo/cmd/log.go) on the file
model (list of CSV records, record 0 the header when the file is
nonempty): determine `maxTitles` as the chain length, raised to the
existing header's declared count when the file is nonempty; write the
header first when the file was empty; then append one record per
day-segment, each `[start, end] ++ titles` right-padded with empty strings
up to `2 + maxTitles` fields. -/
def appendLog (file : List (List String)) (titles : List String)
    (startT endT off : Int) : List (List String) :=
  let maxTitles : Int :=
    if file = [] then (titles.length : Int)
    else max (titles.length : Int) (headerTitleCount file)
  let base := if file = [] then [headerRow maxTitles.toNat] else file
  base ++ (splitDays startT endT off).map (fun seg =>
    let record := formatRFC3339 seg.1 off :: formatRFC3339 seg.2 off :: titles
    record ++ List.replicate ((2 + maxTitles).toNat - record.length) "")

/-- The spec's aggregation-additivity example as a log file: one day, a
session `["A","B"]` of one hour and a session `["A","C"]` of two hours. -/
def exampleRecords : List (List String) :=
  [["start_time", "end_time", "duration_seconds", "title1", "title2"],
   ["1970-01-01T10:00:00Z", "1970-01-01T11:00:00Z", "3600", "A", "B"],
   ["1970-01-01T12:00:00Z", "1970-01-01T14:00:00Z", "7200", "A", "C"]]

/-- A log file whose single row carries a `duration_seconds` field (7200)
that disagrees with `end - start` (3600 seconds). -/
def mismatchRecords : List (List String) :=
  [["start_time", "end_time", "duration_seconds", "title1"],
   ["1970-01-01T10:00:00Z", "1970-01-01T11:00:00Z", "7200", "A"]]

/-- An existing log file whose header declares one title column. -/
def priorFile : List (List String) :=
  [["start_time", "end_time", "title1"],
   ["1970-01-01T10:00:00Z", "1970-01-01T11:00:00Z", "A"]]

mutual

/-- Equality of aggregation nodes up to child order: Go map iteration order
is arbitrary, so two runs that build the same logical tree may store the
children in different association orders. -/
inductive NodeEquiv : TaskNode → TaskNode → Prop where
  | intro (n m : TaskNode) (hn : n.name = m.name)
      (hd : n.duration = m.duration) (ht : n.totalTime = m.totalTime)
      (hc : ForestEquiv n.children m.children) : NodeEquiv n m

/-- Equality of forests up to binding order: the same key multiset and
equivalent nodes under every key. -/
inductive ForestEquiv : Forest → Forest → Prop where
  | intro (f g : Forest) (hk : (keysA f).Perm (keysA g))
      (hv : ∀ k nf ng, getA f k = some nf → getA g k = some ng →
        NodeEquiv nf ng) : ForestEquiv f g

end

/-- Equality of day maps up to binding order. -/
def DayEquiv (m1 m2 : DayMap) : Prop :=
  (keysA m1).Perm (keysA m2) ∧
  ∀ k f g, getA m1 k = some f → getA m2 k = some g → ForestEquiv f g

/-- The node value one step of the chain walk writes: get-or-create for
title `t`, add `d` to both duration fields, recurse into the children with
the remaining titles. -/
def stepNode (f : Forest) (t : String) (rest : List String) (d : Int) : TaskNode :=
  TaskNode.mk t
    ((match getA f t with
      | some n => n
      | none => TaskNode.mk t 0 [] 0).duration + d)
    (processChain (match getA f t with
      | some n => n
      | none => TaskNode.mk t 0 [] 0).children rest d)
    ((match getA f t with
      | some n => n
      | none => TaskNode.mk t 0 [] 0).totalTime + d)

/-- The forest stored under a date key, or an empty forest when the date is
new: the get-or-initialize on `dailyTasks[dateStr]`. -/
def dayForest (acc : DayMap) (k : String) : Forest :=
  match getA acc k with
  | some f => f
  | none => []

/-- One record's effect on the day map, index-free (the record index only
feeds the diagnostics). -/
def stepR (acc : DayMap) (r : List String) : DayMap :=
  (processRecord acc 0 r).1

/-- Well-formedness of a forest as a map image: distinct keys at every
level (Go maps cannot hold duplicate keys). -/
inductive ForestWF : Forest → Prop where
  | intro (f : Forest) (hnd : (keysA f).Nodup)
      (hch : ∀ k n, getA f k = some n → ForestWF n.children) : ForestWF f

/-- Well-formedness of a day map: distinct dates, well-formed forests. -/
def DayWF (m : DayMap) : Prop :=
  (keysA m).Nodup ∧ ∀ k f, getA m k = some f → ForestWF f

/-- Pointwise alignment of two association lists: same keys in the same
positions, equivalent well-formed nodes. -/
inductive Aligned : Forest → Forest → Prop where
  | nil : Aligned [] []
  | cons (k : String) (v w : TaskNode) (lf lg : Forest)
      (hvw : NodeEquiv v w) (hwv : ForestWF v.children)
      (hww : ForestWF w.children) (h : Aligned lf lg) :
      Aligned ((k, v) :: lf) ((k, w) :: lg)

/-- The total time stored under a key, 0 when absent. -/
def totOf (f : Forest) (k : String) : Int :=
  match getA f k with
  | some n => n.totalTime
  | none => 0

/-- The identity of a node as the report sees it: name and the two
duration fields. -/
def nodeData (n : TaskNode) : String × Int × Int :=
  (n.name, n.duration, n.totalTime)

/-- A one-hour `["A","B"]` session row. -/
def rowAB : List String :=
  ["1970-01-01T10:00:00Z", "1970-01-01T11:00:00Z", "3600", "A", "B"]

/-- A two-hour `["A","C"]` session row. -/
def rowAC : List String :=
  ["1970-01-01T12:00:00Z", "1970-01-01T14:00:00Z", "7200", "A", "C"]

/-- A header row for the two session rows. -/
def hdrExample : List String :=
  ["start_time", "end_time", "duration_seconds", "title1", "title2"]

set_option maxRecDepth 4000 in
/-- Concrete facts about the 400 year-of-era windows: the estimator `gdays`
is at least `365 * y` at the start of year-of-era `y` and at most
`365 * y + 364` at its last day, and each window is 365 or 366 days long
according to `leapYoe`. -/
theorem yearTable : ∀ y : Nat, y < 400 →
    0 ≤ yearStart (y : Int) ∧
    365 * (y : Int) ≤ gdays (yearStart (y : Int)) ∧
    gdays (yearEnd (y : Int) - 1) ≤ 365 * (y : Int) + 364 ∧
    yearEnd (y : Int) - yearStart (y : Int) =
      365 + (if leapYoe (y : Int) then 1 else 0) ∧
    yearEnd (y : Int) ≤ 146097 := by
  decide

/-- Int-valued restatement of `yearTable`. -/
theorem yearTableI (y : Int) (h0 : 0 ≤ y) (h1 : y < 400) :
    0 ≤ yearStart y ∧
    365 * y ≤ gdays (yearStart y) ∧
    gdays (yearEnd y - 1) ≤ 365 * y + 364 ∧
    yearEnd y - yearStart y = 365 + (if leapYoe y then 1 else 0) ∧
    yearEnd y ≤ 146097 := by
  have h := yearTable y.toNat (by omega)
  have hy : ((y.toNat : Nat) : Int) = y := by omega
  rwa [hy] at h

/-- The estimator is monotone, one step at a time. -/
theorem gdays_step (a : Int) : gdays a ≤ gdays (a + 1) := by
  unfold gdays
  omega

/-- The estimator is monotone. -/
theorem gdays_mono (a b : Int) (hab : a ≤ b) : gdays a ≤ gdays b := by
  have key : ∀ n : Nat, ∀ x : Int, gdays x ≤ gdays (x + n) := by
    intro n
    induction n with
    | zero => intro x; simp
    | succ k ih =>
      intro x
      have h1 : gdays x ≤ gdays (x + k) := ih x
      have h2 : gdays (x + k) ≤ gdays (x + k + 1) := gdays_step (x + k)
      have he : x + ((k : Int) + 1) = x + k + 1 := by ring
      push_cast
      rw [he]
      exact le_trans h1 h2
  have hn : b = a + ((b - a).toNat : Int) := by omega
  rw [hn]
  exact key (b - a).toNat a

/-- Characterization of the year-of-era computed inside `civilFromDays`:
for a day-of-era `doe`, the estimated year `gdays doe / 365` is the unique
window containing `doe`. -/
theorem yoe_mem (doe : Int) (h0 : 0 ≤ doe) (h1 : doe < 146097) :
    0 ≤ gdays doe / 365 ∧ gdays doe / 365 < 400 ∧
    yearStart (gdays doe / 365) ≤ doe ∧ doe < yearEnd (gdays doe / 365) := by
  have hb : 0 ≤ gdays doe / 365 ∧ gdays doe / 365 < 400 := by unfold gdays; omega
  set y := gdays doe / 365 with hy
  have hdy : 365 * y ≤ gdays doe ∧ gdays doe < 365 * y + 365 := by
    unfold gdays at hy ⊢; omega
  refine ⟨hb.1, hb.2, ?_, ?_⟩
  · by_contra hcon
    push_neg at hcon
    have hy1 : 1 ≤ y := by
      by_contra hy0
      push_neg at hy0
      have hz : y = 0 := by omega
      rw [hz] at hcon
      simp only [yearStart] at hcon
      omega
    obtain ⟨tp1, tp2, tp3, tp4, tp5⟩ := yearTableI (y - 1) (by omega) (by omega)
    have hend : yearEnd (y - 1) = yearStart y := by
      have hne : y - 1 ≠ 399 := by omega
      simp only [yearEnd, hne, if_false]
      congr 1
      ring
    have hm : gdays doe ≤ gdays (yearEnd (y - 1) - 1) := gdays_mono _ _ (by omega)
    omega
  · rcases eq_or_ne y 399 with h399 | h399
    · simp only [yearEnd, h399, if_true, reduceIte]
      omega
    · by_contra hcon
      push_neg at hcon
      obtain ⟨tn1, tn2, tn3, tn4, tn5⟩ := yearTableI (y + 1) (by omega) (by omega)
      have hys : yearEnd y = yearStart (y + 1) := by
        simp only [yearEnd, h399, if_false]
      have hm : gdays (yearStart (y + 1)) ≤ gdays doe := gdays_mono _ _ (by omega)
      omega

/-- Core correctness of the civil conversions: converting a day count to a
civil date always yields a valid Gregorian date (month in 1..12, day within
the month, leap years included), and converting back recovers the day
count. -/
theorem civilFromDays_spec (z y m d : Int) (h : civilFromDays z = (y, m, d)) :
    daysFromCivil y m d = z ∧ 1 ≤ m ∧ m ≤ 12 ∧ 1 ≤ d ∧ d ≤ daysInMonth y m := by
  rw [civilFromDays] at h
  set zs := z + 719468 with hzs
  set era := zs / 146097 with hera
  set doe := zs - era * 146097 with hdoe
  have hdoeB : 0 ≤ doe ∧ doe < 146097 := by omega
  set yoe := (doe - doe / 1460 + doe / 36524 - doe / 146096) / 365 with hyoe
  have hyg : yoe = gdays doe / 365 := by rw [gdays]
  obtain ⟨hy0, hy1, hy2, hy3⟩ := yoe_mem doe hdoeB.1 hdoeB.2
  rw [← hyg] at hy0 hy1 hy2 hy3
  obtain ⟨t1, t2, t3, t4, t5⟩ := yearTableI yoe hy0 hy1
  set doy := doe - (365 * yoe + yoe / 4 - yoe / 100) with hdoy
  have hstart : yearStart yoe = 365 * yoe + yoe / 4 - yoe / 100 := rfl
  have hdoyB : 0 ≤ doy ∧ doy ≤ 364 + (if leapYoe yoe then 1 else 0) := by
    rw [hstart] at hy2
    constructor
    · omega
    · have : doe ≤ yearEnd yoe - 1 := by omega
      rw [hstart] at t4
      omega
  have hdoy365 : doy ≤ 365 := by split at hdoyB <;> omega
  set mp := (5 * doy + 2) / 153 with hmp
  have hmpB : 0 ≤ mp ∧ mp ≤ 11 := by omega
  set dd := doy - (153 * mp + 2) / 5 + 1 with hdd
  injection h with hY h
  injection h with hM hD
  subst hD
  have hleap : m = 2 →
      (isLeap y = true ↔ leapYoe yoe = true) := by
    intro hm2
    have hyval : y = yoe + era * 400 + 1 := by
      have hmval : (if mp < 10 then mp + 3 else mp - 9) = 2 := by rw [hM, hm2]
      have hone : (if (if mp < 10 then mp + 3 else mp - 9) ≤ 2 then (1 : Int)
          else 0) = 1 := by rw [hmval]; norm_num
      rw [hone] at hY
      omega
    simp only [isLeap, leapYoe, Bool.and_eq_true, Bool.or_eq_true, beq_iff_eq,
      bne_iff_ne, ne_eq]
    omega
  obtain ⟨hmp0, hmp11⟩ := hmpB
  clear_value dd
  clear_value mp
  refine ⟨?_, ?_, ?_, ?_, ?_⟩
  · rw [daysFromCivil, ← hY, ← hM]
    have hsplit : ((if (if mp < 10 then mp + 3 else mp - 9) ≤ 2 then (1 : Int) else 0) =
        if mp < 10 then 0 else 1) := by
      rcases lt_or_le mp 10 with hc | hc
      · simp only [hc, if_true, reduceIte]
        have : ¬(mp + 3 ≤ 2) := by omega
        simp [this]
      · have : ¬(mp < 10) := by omega
        simp only [this, if_false]
        have h2 : mp - 9 ≤ 2 := by omega
        simp [h2]
    rw [hsplit]
    rcases lt_or_le mp 10 with hc | hc
    · simp only [hc, if_true, reduceIte]
      have hmp3 : (2 : Int) < mp + 3 := by omega
      simp only [hmp3, if_true, reduceIte]
      have e1 : yoe + era * 400 + 0 - 0 = yoe + era * 400 := by ring
      have e2 : mp + 3 - 3 = mp := by ring
      rw [e1, e2]
      have hera' : (yoe + era * 400) / 400 = era := by omega
      rw [hera']
      have e3 : yoe + era * 400 - era * 400 = yoe := by ring
      simp only [e3]
      omega
    · have hnc : ¬(mp < 10) := by omega
      simp only [hnc, if_false]
      have hmp9 : ¬((2 : Int) < mp - 9) := by omega
      simp only [hmp9, if_false]
      have e1 : yoe + era * 400 + 1 - 1 = yoe + era * 400 := by ring
      have e2 : mp - 9 + 9 = mp := by ring
      rw [e1, e2]
      have hera' : (yoe + era * 400) / 400 = era := by omega
      rw [hera']
      have e3 : yoe + era * 400 - era * 400 = yoe := by ring
      simp only [e3]
      omega
  · rw [← hM]; split <;> omega
  · rw [← hM]; split <;> omega
  · omega
  · rw [← hM]
    rcases hdoyB with ⟨hdl, hdu⟩
    have hfeb : mp = 11 → doy ≤ 364 + (if leapYoe yoe then 1 else 0) := fun _ => hdu
    rcases lt_or_le mp 10 with hc | hc
    · have hm12 : ¬(mp + 3 = 2) := by omega
      have : daysInMonth y (mp + 3) = (if mp + 3 = 4 ∨ mp + 3 = 6 ∨ mp + 3 = 9 ∨
          mp + 3 = 11 then 30 else 31) := by
        rw [daysInMonth, if_neg hm12]
      rw [if_pos hc, this]
      interval_cases mp <;> (try norm_num) <;> omega
    · have hnc : ¬(mp < 10) := by omega
      rw [if_neg hnc]
      have hmp1011 : mp = 10 ∨ mp = 11 := by omega
      rcases hmp1011 with h10 | h11
      · subst h10
        norm_num [daysInMonth]
        omega
      · subst h11
        have hm2 : (11 : Int) - 9 = 2 := by norm_num
        rw [hm2]
        have hiso := hleap (by rw [← hM]; norm_num)
        have hbool : isLeap y = leapYoe yoe := by
          cases hp : isLeap y <;> cases hq : leapYoe yoe <;> simp_all
        rw [daysInMonth, if_pos rfl, hbool]
        cases hq : leapYoe yoe
        all_goals rw [hq] at hdu
        · norm_num at hdu ⊢
          omega
        · norm_num at hdu ⊢
          omega

/-- Digit characters round-trip. -/
theorem digitVal_pad : ∀ k : Nat, k < 10 →
    digitVal? (Char.ofNat (48 + k)) = some k := by
  decide

/-- Two-digit numbers round-trip through `pad2`/`parse2`. -/
theorem parse2_pad2 (n : Nat) (h : n < 100) (rest : List Char) :
    parse2 (pad2 n ++ rest) = some (n, rest) := by
  have h1 : n / 10 < 10 := by omega
  have h2 : n % 10 < 10 := by omega
  simp only [pad2, List.cons_append, List.nil_append, parse2,
    digitVal_pad _ h1, digitVal_pad _ h2, Option.bind_eq_bind,
    Option.some_bind]
  have : 10 * (n / 10) + n % 10 = n := by omega
  simp [this]

/-- Four-digit numbers round-trip through `pad4`/`parse4`. -/
theorem parse4_pad4 (n : Nat) (h : n < 10000) (rest : List Char) :
    parse4 (pad4 n ++ rest) = some (n, rest) := by
  have h1 : n / 100 < 100 := by omega
  have h2 : n % 100 < 100 := by omega
  simp only [pad4, List.append_assoc, parse4, parse2_pad2 _ h1,
    parse2_pad2 _ h2, Option.bind_eq_bind, Option.some_bind]
  have : 100 * (n / 100) + n % 100 = n := by omega
  simp [this]

/-- Any month has at most 31 days. -/
theorem daysInMonth_le (y m : Int) : daysInMonth y m ≤ 31 := by
  rw [daysInMonth]
  split
  · split <;> omega
  · split <;> omega

/-- Expected separators are consumed. -/
theorem expectChar_cons (c : Char) (rest : List Char) :
    expectChar c (c :: rest) = some rest := by
  simp [expectChar]

/-- The date part of a formatted timestamp parses back to its fields. -/
theorem parseDatePart_pads (y mo d : Nat) (hy : y < 10000) (hm : mo < 100)
    (hd : d < 100) (rest : List Char) :
    parseDatePart (pad4 y ++ '-' :: (pad2 mo ++ '-' :: (pad2 d ++ rest))) =
      some (y, mo, d, rest) := by
  simp only [parseDatePart, parse4_pad4 _ hy, Option.bind_eq_bind,
    Option.some_bind, expectChar_cons, parse2_pad2 _ hm, parse2_pad2 _ hd]
  rfl

/-- The clock part of a formatted timestamp parses back to its fields. -/
theorem parseTimePart_pads (h mi s : Nat) (hh : h < 100) (hm : mi < 100)
    (hs : s < 100) (rest : List Char) :
    parseTimePart (pad2 h ++ ':' :: (pad2 mi ++ ':' :: (pad2 s ++ rest))) =
      some (h, mi, s, rest) := by
  simp only [parseTimePart, parse2_pad2 _ hh, Option.bind_eq_bind,
    Option.some_bind, expectChar_cons, parse2_pad2 _ hm, parse2_pad2 _ hs]
  rfl

/-- A printed offset contains no fractional-second part. -/
theorem parseFrac_offsetChars (off : Int) :
    parseFrac (offsetChars off) = some (0, offsetChars off) := by
  rw [offsetChars]
  split
  · rfl
  · split <;> rfl

/-- Variant of `parse2_pad2` with nothing following the two digits. -/
theorem parse2_pad2_nil (n : Nat) (h : n < 100) : parse2 (pad2 n) = some (n, []) := by
  have h2 := parse2_pad2 n h []
  rwa [List.append_nil] at h2

/-- A printed offset parses back to the offset it denotes, provided the
offset is a whole number of minutes smaller than a day (which is what the
`hh:mm` layout can denote). -/
theorem parseOff_offsetChars (off : Int) (h60 : off % 60 = 0)
    (hR : off.natAbs < 86400) :
    parseOff (offsetChars off) = some off := by
  rw [offsetChars]
  rcases lt_trichotomy off 0 with hneg | hzero | hpos
  · rw [if_neg (by omega), if_pos hneg]
    have hoh : off.natAbs / 60 / 60 < 100 := by omega
    have hom : off.natAbs / 60 % 60 < 100 := by omega
    simp only [parseOff, parseOffBody, parse2_pad2 _ hoh, Option.bind_eq_bind,
      Option.some_bind, expectChar_cons, parse2_pad2_nil _ hom]
    rw [if_pos ⟨trivial, by omega, by omega⟩]
    simp only [Option.map_some']
    congr 1
    omega
  · subst hzero
    rfl
  · rw [if_neg (by omega), if_neg (by omega)]
    have hoh : off.natAbs / 60 / 60 < 100 := by omega
    have hom : off.natAbs / 60 % 60 < 100 := by omega
    simp only [parseOff, parseOffBody, parse2_pad2 _ hoh, Option.bind_eq_bind,
      Option.some_bind, expectChar_cons, parse2_pad2_nil _ hom]
    rw [if_pos ⟨trivial, by omega, by omega⟩]
    congr 1
    omega

/-- Round-trip through the log file's timestamp encoding: parsing a
formatted timestamp recovers the offset exactly and the instant truncated
to whole seconds — the RFC3339 layout carries no sub-second digits. -/
theorem parse_format_roundtrip (t off : Int) (h60 : off % 60 = 0)
    (hR : off.natAbs < 86400) (hy0 : 0 ≤ localYear t off)
    (hy1 : localYear t off < 10000) :
    parseRFC3339 (formatRFC3339 t off) =
      some (nsPerSec * (t / nsPerSec), off) := by
  rw [parseRFC3339, formatRFC3339]
  have hdata : ∀ cs : List Char, (String.mk cs).data = cs := fun _ => rfl
  rw [hdata]
  set ls := (t + off * nsPerSec) / nsPerSec with hls
  set days := ls / secPerDay with hdays
  set sod := ls % secPerDay with hsod
  rcases hc : civilFromDays days with ⟨y, md⟩
  rcases md with ⟨m, d⟩
  obtain ⟨hrt, hm1, hm12, hd1, hdm⟩ := civilFromDays_spec days y m d hc
  have hyv : localYear t off = y := by
    rw [localYear, ← hls, ← hdays, hc]
  rw [hyv] at hy0 hy1
  have hsodB : 0 ≤ sod ∧ sod < 86400 := by
    constructor
    · rw [hsod]
      exact Int.emod_nonneg ls (by simp [secPerDay])
    · have h2 : ls % secPerDay < secPerDay :=
        Int.emod_lt_of_pos ls (by simp [secPerDay])
      rw [hsod]
      simp only [secPerDay] at h2 ⊢
      exact h2
  have hdc : dateChars t off = pad4 y.toNat ++ '-' :: (pad2 m.toNat ++
      '-' :: pad2 d.toNat) := by
    rw [dateChars, ← hls, ← hdays, hc]
  have htc : timeChars t off = pad2 (sod / 3600).toNat ++ ':' ::
      (pad2 ((sod % 3600) / 60).toNat ++ ':' :: pad2 (sod % 60).toNat) := by
    rw [timeChars, ← hls, ← hsod]
  rw [hdc, htc]
  have hd31 : d ≤ 31 := le_trans hdm (daysInMonth_le y m)
  rw [parseChars]
  have hshape : ∀ tail : List Char, pad4 y.toNat ++ '-' ::
      (pad2 m.toNat ++ '-' :: pad2 d.toNat) ++ tail =
      pad4 y.toNat ++ '-' :: (pad2 m.toNat ++ '-' :: (pad2 d.toNat ++ tail)) := by
    intro tail
    simp [List.append_assoc]
  rw [hshape]
  rw [parseDatePart_pads y.toNat m.toNat d.toNat (by omega) (by omega) (by omega)]
  simp only [Option.bind_eq_bind, Option.some_bind, expectChar_cons]
  have hshape2 : pad2 (sod / 3600).toNat ++ ':' ::
      (pad2 ((sod % 3600) / 60).toNat ++ ':' :: pad2 (sod % 60).toNat) ++
      offsetChars off = pad2 (sod / 3600).toNat ++ ':' ::
      (pad2 ((sod % 3600) / 60).toNat ++ ':' ::
      (pad2 (sod % 60).toNat ++ offsetChars off)) := by
    simp [List.append_assoc]
  rw [hshape2]
  rw [parseTimePart_pads _ _ _ (by omega) (by omega) (by omega)]
  simp only [Option.some_bind]
  rw [parseFrac_offsetChars]
  simp only [Option.some_bind]
  rw [parseOff_offsetChars off h60 hR]
  simp only [Option.some_bind]
  rw [mkInstant]
  have hyc : ((y.toNat : Nat) : Int) = y := by omega
  have hmc : ((m.toNat : Nat) : Int) = m := by omega
  have hdcoe : ((d.toNat : Nat) : Int) = d := by omega
  simp only [secPerDay] at hsod hdays
  simp only [nsPerSec] at hls
  rw [if_pos]
  · simp only [Option.some.injEq, Prod.mk.injEq]
    refine ⟨?_, trivial⟩
    rw [hyc, hmc, hdcoe, hrt]
    simp only [nsPerSec, secPerDay]
    omega
  · refine ⟨by omega, by omega, by omega, ?_, by omega, by omega, by omega⟩
    rw [hyc, hmc, hdcoe]
    exact hdm

/-- The next day start is strictly in the future. -/
theorem nextDayStart_gt (t off : Int) : t < nextDayStart t off := by
  simp only [nextDayStart, localDay, nsPerDay, nsPerSec]
  omega

/-- The next day start lies at a local midnight. -/
theorem nextDayStart_midnight (t off : Int) :
    (nextDayStart t off + off * nsPerSec) % nsPerDay = 0 := by
  simp only [nextDayStart, localDay, nsPerDay, nsPerSec]
  omega

/-- One unfolding of the day-splitting loop. -/
theorem splitGo_unfold (off endT cur : Int) :
    splitGo off endT cur =
      if (if endT < nextDayStart cur off - 1 then endT
          else nextDayStart cur off - 1) = endT
      then [(cur, if endT < nextDayStart cur off - 1 then endT
            else nextDayStart cur off - 1)]
      else (cur, if endT < nextDayStart cur off - 1 then endT
            else nextDayStart cur off - 1) ::
          splitGo off endT (nextDayStart cur off) := by
  rw [splitGo.eq_def]
  exact rfl

/-- Invariants of the day-splitting loop, for any `cur ≤ endT`: the produced
list is nonempty, starts at `cur`, ends at `endT`, consecutive segments are
adjacent nanoseconds with the boundary at a local midnight, and every
segment is non-degenerate and contained in one local calendar day. -/
theorem splitGo_spec (off endT : Int) : ∀ cur, cur ≤ endT →
    (splitGo off endT cur).head?.map Prod.fst = some cur ∧
    (splitGo off endT cur).getLast?.map Prod.snd = some endT ∧
    List.Chain' (fun a b => b.1 = a.2 + 1 ∧
      (a.2 + 1 + off * nsPerSec) % nsPerDay = 0) (splitGo off endT cur) ∧
    ∀ seg ∈ splitGo off endT cur, seg.1 ≤ seg.2 ∧
      localDay seg.1 off = localDay seg.2 off := by
  have main : ∀ n : Nat, ∀ cur, cur ≤ endT → (endT - cur).toNat = n →
      (splitGo off endT cur).head?.map Prod.fst = some cur ∧
      (splitGo off endT cur).getLast?.map Prod.snd = some endT ∧
      List.Chain' (fun a b => b.1 = a.2 + 1 ∧
        (a.2 + 1 + off * nsPerSec) % nsPerDay = 0) (splitGo off endT cur) ∧
      ∀ seg ∈ splitGo off endT cur, seg.1 ≤ seg.2 ∧
        localDay seg.1 off = localDay seg.2 off := by
    intro n
    induction n using Nat.strong_induction_on with
    | _ n ih =>
      intro cur hc hn
      have hgt := nextDayStart_gt cur off
      have hsame : ∀ x, cur ≤ x → x ≤ nextDayStart cur off - 1 →
          localDay cur off = localDay x off := by
        intro x h1 h2
        simp only [nextDayStart, localDay, nsPerDay, nsPerSec] at *
        omega
      rw [splitGo_unfold]
      by_cases hend : (if endT < nextDayStart cur off - 1 then endT
          else nextDayStart cur off - 1) = endT
      · rw [if_pos hend, hend]
        refine ⟨rfl, rfl, List.chain'_singleton _, ?_⟩
        intro seg hseg
        rw [List.mem_singleton] at hseg
        subst hseg
        have hle : endT ≤ nextDayStart cur off - 1 := by
          by_cases hlt : endT < nextDayStart cur off - 1
          · omega
          · rw [if_neg hlt] at hend
            omega
        exact ⟨hc, hsame endT hc hle⟩
      · rw [if_neg hend]
        have hcase : ¬(endT < nextDayStart cur off - 1) := by
          intro hlt
          rw [if_pos hlt] at hend
          exact hend rfl
        rw [if_neg hcase] at hend ⊢
        have hlt : nextDayStart cur off - 1 < endT := by omega
        have hrec := ih (endT - nextDayStart cur off).toNat (by omega)
          (nextDayStart cur off) (by omega) rfl
        obtain ⟨ihHead, ihLast, ihChain, ihMem⟩ := hrec
        rcases htail : splitGo off endT (nextDayStart cur off) with _ | ⟨b, l⟩
        · rw [htail] at ihHead
          simp at ihHead
        · rw [htail] at ihHead ihLast ihChain ihMem
          have hb1 : b.1 = nextDayStart cur off := by
            simp only [List.head?_cons, Option.map_some', Option.some.injEq] at ihHead
            exact ihHead
          refine ⟨rfl, ?_, ?_, ?_⟩
          · rw [List.getLast?_cons_cons]
            exact ihLast
          · rw [List.chain'_cons]
            refine ⟨⟨by omega, ?_⟩, ihChain⟩
            have := nextDayStart_midnight cur off
            have he : nextDayStart cur off - 1 + 1 = nextDayStart cur off := by
              omega
            rw [he]
            exact this
          · intro seg hseg
            rcases List.mem_cons.mp hseg with hs | hs
            · subst hs
              exact ⟨by omega, hsame _ (by omega) (by omega)⟩
            · exact ihMem seg hs
  intro cur hc
  exact main (endT - cur).toNat cur hc rfl

/-- Reading back the key just written. -/
theorem getA_setA_same {α : Type} (f : List (String × α)) (k : String) (v : α) :
    getA (setA f k v) k = some v := by
  induction f with
  | nil => simp [setA, getA]
  | cons p rest ih =>
    rw [setA]
    by_cases h : p.1 = k
    · rw [if_pos h, getA, if_pos h]
    · rw [if_neg h, getA, if_neg h]
      exact ih

/-- Writes do not disturb other keys. -/
theorem getA_setA_other {α : Type} (f : List (String × α)) (k k' : String)
    (v : α) (h : k ≠ k') :
    getA (setA f k v) k' = getA f k' := by
  induction f with
  | nil => simp [setA, getA, h]
  | cons p rest ih =>
    rw [setA]
    by_cases hp : p.1 = k
    · rw [if_pos hp, getA, getA]
      have : ¬(p.1 = k') := by rw [hp]; exact h
      rw [if_neg this, if_neg this]
    · rw [if_neg hp, getA, getA]
      by_cases hp' : p.1 = k'
      · rw [if_pos hp', if_pos hp']
      · rw [if_neg hp', if_neg hp']
        exact ih

/-- Unfolding of `lookupNode` at a single-step path. -/
theorem lookupNode_single (f : Forest) (t : String) :
    lookupNode f [t] = getA f t := rfl

/-- Unfolding of `lookupNode` at a longer path. -/
theorem lookupNode_cons_cons (f : Forest) (p q : String) (qs : List String) :
    lookupNode f (p :: q :: qs) =
      (getA f p).bind (fun nd => lookupNode nd.children (q :: qs)) := rfl

/-- The empty forest has no nodes at any path. -/
theorem lookupNode_nil : ∀ path, lookupNode ([] : Forest) path = none := by
  intro path
  rcases path with _ | ⟨t, ts⟩
  · rfl
  · rcases ts with _ | _
    · rfl
    · rfl

/-- C9 supporting fact, stated at the chain walk: a title list with an
empty entry contributes exactly what its prefix before the empty entry
contributes. -/
theorem processChain_stops_at_empty (d : Int) (b : List String) :
    ∀ (a : List String), "" ∉ a → ∀ f : Forest,
    processChain f (a ++ "" :: b) d = processChain f a d := by
  intro a
  induction a with
  | nil =>
    intro _ f
    simp [processChain]
  | cons t rest ih =>
    intro h f
    have ht : ¬(t = "") := by
      intro he
      exact h (by rw [he]; exact List.mem_cons_self _ _)
    have hrest : "" ∉ rest := fun hm => h (List.mem_cons_of_mem _ hm)
    rw [List.cons_append, processChain, processChain, if_neg ht, if_neg ht]
    rcases hget : getA f t with _ | m <;> simp only [hget] <;>
      rw [ih hrest]

/-- Every node's `Duration` equals its `TotalTime` after a chain walk, if
that held before: the walk adds the same amount to both fields of every
node it touches and creates nodes with both fields zero. -/
theorem processChain_keeps_DT (d : Int) : ∀ (ts : List String) (f : Forest),
    (∀ path n, lookupNode f path = some n → n.duration = n.totalTime) →
    ∀ path n, lookupNode (processChain f ts d) path = some n →
      n.duration = n.totalTime := by
  intro ts
  induction ts with
  | nil =>
    intro f hf path n h
    rw [processChain] at h
    exact hf path n h
  | cons t rest ih =>
    intro f hf path n h
    rw [processChain] at h
    by_cases ht : t = ""
    · rw [if_pos ht] at h
      exact hf path n h
    · rw [if_neg ht] at h
      rcases hget : getA f t with _ | m
      · rw [hget] at h
        simp only [TaskNode.duration, TaskNode.children, TaskNode.totalTime] at h
        rcases path with _ | ⟨p, ps⟩
        · simp [lookupNode] at h
        · by_cases hpt : p = t
          · subst hpt
            rcases ps with _ | ⟨q, qs⟩
            · rw [lookupNode_single, getA_setA_same] at h
              injection h with h
              subst h
              simp [TaskNode.duration, TaskNode.totalTime]
            · rw [lookupNode_cons_cons, getA_setA_same, Option.some_bind] at h
              simp only [TaskNode.children] at h
              refine ih [] ?_ (q :: qs) n h
              intro path' n' h'
              rw [lookupNode_nil] at h'
              exact absurd h' (by simp)
          · have hne : ¬(t = p) := fun he => hpt he.symm
            rcases ps with _ | ⟨q, qs⟩
            · rw [lookupNode_single, getA_setA_other _ _ _ _ hne] at h
              exact hf [p] n (by rw [lookupNode_single]; exact h)
            · rw [lookupNode_cons_cons, getA_setA_other _ _ _ _ hne] at h
              exact hf (p :: q :: qs) n (by rw [lookupNode_cons_cons]; exact h)
      · rcases m with ⟨mn, md, mc, mt⟩
        have hm : md = mt := by
          have := hf [t] (TaskNode.mk mn md mc mt) (by rw [lookupNode_single]; exact hget)
          simpa [TaskNode.duration, TaskNode.totalTime] using this
        rw [hget] at h
        simp only [TaskNode.duration, TaskNode.children, TaskNode.totalTime] at h
        rcases path with _ | ⟨p, ps⟩
        · simp [lookupNode] at h
        · by_cases hpt : p = t
          · subst hpt
            rcases ps with _ | ⟨q, qs⟩
            · rw [lookupNode_single, getA_setA_same] at h
              injection h with h
              subst h
              simp only [TaskNode.duration, TaskNode.totalTime]
              omega
            · rw [lookupNode_cons_cons, getA_setA_same, Option.some_bind] at h
              simp only [TaskNode.children] at h
              refine ih mc ?_ (q :: qs) n h
              intro path' n' h'
              rcases path' with _ | ⟨w, ws⟩
              · rw [show lookupNode mc [] = none from rfl] at h'
                exact absurd h' (by simp)
              · refine hf (p :: w :: ws) n' ?_
                rw [lookupNode_cons_cons, hget, Option.some_bind]
                simp only [TaskNode.children]
                exact h'
          · have hne : ¬(t = p) := fun he => hpt he.symm
            rcases ps with _ | ⟨q, qs⟩
            · rw [lookupNode_single, getA_setA_other _ _ _ _ hne] at h
              exact hf [p] n (by rw [lookupNode_single]; exact h)
            · rw [lookupNode_cons_cons, getA_setA_other _ _ _ _ hne] at h
              exact hf (p :: q :: qs) n (by rw [lookupNode_cons_cons]; exact h)

/-- Chain-walk invariant lifted over one record. -/
theorem processRecord_keeps_DT (acc : DayMap) (i : Nat) (r : List String)
    (hacc : ∀ date path n, lookupPath acc date path = some n →
      n.duration = n.totalTime) :
    ∀ date path n, lookupPath (processRecord acc i r).1 date path = some n →
      n.duration = n.totalTime := by
  intro date path n h
  rw [processRecord] at h
  by_cases h3 : r.length < 3
  · rw [if_pos h3] at h
    exact hacc date path n h
  · rw [if_neg h3] at h
    rcases hp : parseRFC3339 (r.getD 0 "") with _ | so
    · rw [hp] at h
      exact hacc date path n h
    · rw [hp] at h
      rcases so with ⟨s, off⟩
      rcases ha : atoi (r.getD 2 "") with _ | ds
      · rw [ha] at h
        exact hacc date path n h
      · rw [ha] at h
        rw [lookupPath] at h
        by_cases hd : formatDateOnly s off = date
        · rw [show (setA acc (formatDateOnly s off)
              (processChain (match getA acc (formatDateOnly s off) with
                | some f => f
                | none => []) (r.drop 3) (wrap64 (ds * nsPerSec))), (none : Option Diag)).1
              = setA acc (formatDateOnly s off)
              (processChain (match getA acc (formatDateOnly s off) with
                | some f => f
                | none => []) (r.drop 3) (wrap64 (ds * nsPerSec))) from rfl, ← hd,
            getA_setA_same, Option.some_bind] at h
          rcases hg : getA acc (formatDateOnly s off) with _ | f0
          · rw [hg] at h
            refine processChain_keeps_DT _ _ [] ?_ path n h
            intro path' n' h'
            rw [lookupNode_nil] at h'
            exact absurd h' (by simp)
          · rw [hg] at h
            refine processChain_keeps_DT _ _ f0 ?_ path n h
            intro path' n' h'
            refine hacc (formatDateOnly s off) path' n' ?_
            rw [lookupPath, hg, Option.some_bind]
            exact h'
        · rw [show (setA acc (formatDateOnly s off)
              (processChain (match getA acc (formatDateOnly s off) with
                | some f => f
                | none => []) (r.drop 3) (wrap64 (ds * nsPerSec))), (none : Option Diag)).1
              = setA acc (formatDateOnly s off)
              (processChain (match getA acc (formatDateOnly s off) with
                | some f => f
                | none => []) (r.drop 3) (wrap64 (ds * nsPerSec))) from rfl,
            getA_setA_other _ _ _ _ hd] at h
          refine hacc date path n ?_
          rw [lookupPath]
          exact h

/-- Chain-walk invariant lifted over the record loop. -/
theorem runRecords_keeps_DT : ∀ (l : List (List String)) (acc : DayMap) (i : Nat),
    (∀ date path n, lookupPath acc date path = some n →
      n.duration = n.totalTime) →
    ∀ date path n, lookupPath (runRecords acc i l).1 date path = some n →
      n.duration = n.totalTime := by
  intro l
  induction l with
  | nil =>
    intro acc i hacc date path n h
    rw [runRecords] at h
    exact hacc date path n h
  | cons r rest ih =>
    intro acc i hacc date path n h
    rw [runRecords] at h
    exact ih (processRecord acc i r).1 (i + 1)
      (processRecord_keeps_DT acc i r hacc) date path n h

/-- C10: after aggregating any record list, every node's `Duration` equals
its `TotalTime`: `generateSummary` increments the two fields together by
the same amount at every node of a session's chain, so each displayed
subtask number already includes the subtree's full time. -/
theorem c10_duration_equals_totalTime (records : List (List String))
    (date : String) (path : List String) (n : TaskNode)
    (h : lookupPath (aggregate records) date path = some n) :
    n.duration = n.totalTime := by
  refine runRecords_keeps_DT (records.drop 1) [] 1 ?_ date path n h
  intro d p m h'
  rw [lookupPath] at h'
  simp [getA] at h'

/-- Witness for C10 at the spec's concrete example. -/
theorem c10_duration_equals_totalTime_witness :
    lookupPath (aggregate exampleRecords) "1970-01-01" ["A", "B"] =
      some (TaskNode.mk "B" 3600000000000 [] 3600000000000) ∧
    (TaskNode.mk "B" 3600000000000 [] 3600000000000).duration =
      (TaskNode.mk "B" 3600000000000 [] 3600000000000).totalTime :=
  ⟨rfl, c10_duration_equals_totalTime exampleRecords "1970-01-01" ["A", "B"]
    (TaskNode.mk "B" 3600000000000 [] 3600000000000) rfl⟩

/-- C1 counterexample: on the spec's own example (one day, `["A","B"]` for
1h and `["A","C"]` for 2h) node A's own-duration field `Duration` is 3h,
not 0h: the aggregator increments `Duration` at every node of the chain,
not only at the deepest one. -/
theorem c1_counterexample :
    (lookupPath (aggregate exampleRecords) "1970-01-01" ["A"]).map
      TaskNode.duration = some (3 * nsPerHour) ∧ (3 * nsPerHour : Int) ≠ 0 :=
  ⟨rfl, by decide⟩

/-- C2 counterexample: the aggregator attributes 7200 seconds (the
`duration_seconds` field) to node A although the row's `end - start` is
3600 seconds. -/
theorem c2_counterexample :
    (lookupPath (aggregate mismatchRecords) "1970-01-01" ["A"]).map
      TaskNode.duration = some (7200 * nsPerSec) ∧
    (parseRFC3339 "1970-01-01T10:00:00Z").map Prod.fst =
      some (36000 * nsPerSec) ∧
    (parseRFC3339 "1970-01-01T11:00:00Z").map Prod.fst =
      some (39600 * nsPerSec) ∧
    (7200 * nsPerSec : Int) ≠ 39600 * nsPerSec - 36000 * nsPerSec :=
  ⟨rfl, rfl, rfl, by decide⟩

/-- C2 as amended: on a record with at least three fields the aggregator's
attributed duration is `time.Duration(duration_seconds) * time.Second`
computed in wrapping 64-bit arithmetic on the value parsed from field 2 —
equal to `duration_seconds` seconds exactly in the no-overflow range — and
the end timestamp (field 1) is never read: the result does not mention
it. -/
theorem c2_duration_from_field (acc : DayMap) (i : Nat) (a e c : String)
    (ts : List String) :
    (processRecord acc i (a :: e :: c :: ts) =
      match parseRFC3339 a with
      | none => (acc, some (.badStart (i + 1) a))
      | some (s, off) =>
        match atoi c with
        | none => (acc, some (.badDuration (i + 1) c))
        | some durSec =>
          (setA acc (formatDateOnly s off)
            (processChain (match getA acc (formatDateOnly s off) with
              | some f => f
              | none => []) ts (wrap64 (durSec * nsPerSec))), none)) ∧
    ∀ durSec : Int, -9223372036854775808 ≤ durSec * nsPerSec →
      durSec * nsPerSec ≤ 9223372036854775807 →
      wrap64 (durSec * nsPerSec) = durSec * nsPerSec := by
  constructor
  · rw [processRecord]
    have h3 : ¬((a :: e :: c :: ts).length < 3) := by simp
    rw [if_neg h3]
    rfl
  · intro durSec h1 h2
    rw [wrap64]
    omega

/-- C2 witness: 7200 s is attributed exactly; `duration_seconds = 10^10`
(accepted by `Atoi`) wraps to a negative attributed duration. -/
theorem c2_duration_from_field_witness :
    (-9223372036854775808 ≤ (7200 : Int) * nsPerSec ∧
      (7200 : Int) * nsPerSec ≤ 9223372036854775807) ∧
    wrap64 (7200 * nsPerSec) = 7200 * nsPerSec ∧
    wrap64 (10000000000 * nsPerSec) < 0 :=
  ⟨⟨by decide, by decide⟩,
    (c2_duration_from_field [] 0 "" "" "" []).2 7200 (by decide) (by decide),
    by decide⟩

/-- C3 counterexample: a two-field row with two valid timestamps is
skipped by the reader (the code requires three fields), although the
claim's condition (fewer than 2 fields, or an unparsable timestamp or
duration) does not hold for it. -/
theorem c3_counterexample :
    (processRecord [] 1 ["1970-01-01T10:00:00Z",
      "1970-01-01T11:00:00Z"]).2.isSome = true ∧
    ¬((["1970-01-01T10:00:00Z", "1970-01-01T11:00:00Z"] :
      List String).length < 2) ∧
    (parseRFC3339 "1970-01-01T10:00:00Z").isSome = true ∧
    (parseRFC3339 "1970-01-01T11:00:00Z").isSome = true :=
  ⟨rfl, by decide, rfl, rfl⟩

/-- C3 as amended: a data record is skipped (a diagnostic is emitted and
the forest is unchanged for it) exactly when it has fewer than 3 fields,
or field 0 fails to parse as a timestamp, or field 2 fails to parse as an
`int64` — including out-of-range numerals, which `strconv.Atoi` rejects
with a range error exactly at the 64-bit bounds; the end timestamp is
never examined. -/
theorem c3_skip_iff (acc : DayMap) (i : Nat) (r : List String) :
    ((processRecord acc i r).2.isSome = true ↔
      (r.length < 3 ∨ parseRFC3339 (r.getD 0 "") = none ∨
        atoi (r.getD 2 "") = none)) ∧
    atoi "99999999999999999999" = none ∧
    atoi "9223372036854775807" = some 9223372036854775807 ∧
    atoi "9223372036854775808" = none ∧
    atoi "-9223372036854775808" = some (-9223372036854775808) ∧
    atoi "-9223372036854775809" = none := by
  refine ⟨?_, by decide, by decide, by decide, by decide, by decide⟩
  rw [processRecord]
  by_cases h3 : r.length < 3
  · simp [h3]
  · rw [if_neg h3]
    rcases hp : parseRFC3339 (r.getD 0 "") with _ | so
    · simp [hp, h3]
    · rcases so with ⟨s, off⟩
      rcases ha : atoi (r.getD 2 "") with _ | ds
      · simp [hp, ha, h3]
      · simp [hp, ha, h3]

/-- C4: for `start ≤ end` the day splitter's segments are nonempty, begin
at `start`, end at `end`, are contiguous at nanosecond resolution
(each segment begins one nanosecond after its predecessor ends, hence no
gap and no overlap), every internal boundary lies exactly at a local
midnight, and every segment is non-degenerate and contained in a single
local calendar day (the day is computed in the session's fixed offset, the
timezone of `start`). -/
theorem c4_day_split_coverage (startT endT off : Int) (h : startT ≤ endT) :
    splitDays startT endT off ≠ [] ∧
    (splitDays startT endT off).head?.map Prod.fst = some startT ∧
    (splitDays startT endT off).getLast?.map Prod.snd = some endT ∧
    List.Chain' (fun a b => b.1 = a.2 + 1 ∧
      (a.2 + 1 + off * nsPerSec) % nsPerDay = 0) (splitDays startT endT off) ∧
    ∀ seg ∈ splitDays startT endT off, seg.1 ≤ seg.2 ∧
      localDay seg.1 off = localDay seg.2 off := by
  have hs := splitGo_spec off endT startT h
  refine ⟨?_, hs.1, hs.2.1, hs.2.2.1, hs.2.2.2⟩
  intro hnil
  rw [splitDays] at hnil
  rw [hnil] at hs
  simp at hs

/-- Witness for C4 on a concrete midnight-crossing interval. -/
theorem c4_day_split_coverage_witness :
    (82800000000000 : Int) ≤ 90000000000000 ∧
    (splitDays 82800000000000 90000000000000 0 ≠ [] ∧
    (splitDays 82800000000000 90000000000000 0).head?.map Prod.fst =
      some 82800000000000 ∧
    (splitDays 82800000000000 90000000000000 0).getLast?.map Prod.snd =
      some 90000000000000 ∧
    List.Chain' (fun a b => b.1 = a.2 + 1 ∧
      (a.2 + 1 + 0 * nsPerSec) % nsPerDay = 0)
      (splitDays 82800000000000 90000000000000 0) ∧
    ∀ seg ∈ splitDays 82800000000000 90000000000000 0, seg.1 ≤ seg.2 ∧
      localDay seg.1 0 = localDay seg.2 0) :=
  ⟨by decide, c4_day_split_coverage 82800000000000 90000000000000 0 (by decide)⟩

/-- C5: when `start` and `end` fall on the same local calendar day, the
splitter produces exactly one segment, the whole interval. -/
theorem c5_same_day_single (startT endT off : Int) (h1 : startT ≤ endT)
    (h2 : localDay startT off = localDay endT off) :
    splitDays startT endT off = [(startT, endT)] := by
  have hle : endT ≤ nextDayStart startT off - 1 := by
    simp only [nextDayStart, localDay, nsPerDay, nsPerSec] at h2 ⊢
    omega
  rw [splitDays, splitGo_unfold]
  by_cases hlt : endT < nextDayStart startT off - 1
  · rw [if_pos hlt]
    rw [if_pos rfl]
  · have heq : nextDayStart startT off - 1 = endT := by omega
    rw [if_neg hlt, if_pos heq, heq]

/-- Witness for C5 on a concrete same-day interval. -/
theorem c5_same_day_single_witness :
    ((36000000000000 : Int) ≤ 39600000000000 ∧
      localDay 36000000000000 0 = localDay 39600000000000 0) ∧
    splitDays 36000000000000 39600000000000 0 =
      [(36000000000000, 39600000000000)] :=
  ⟨⟨by decide, by decide⟩,
    c5_same_day_single 36000000000000 39600000000000 0 (by decide) (by decide)⟩

/-- C6 counterexample: the last nanosecond of a day — an end timestamp the
day splitter itself produces — does not survive the encode/decode
round-trip: its sub-second part is dropped by the RFC3339 layout. -/
theorem c6_counterexample :
    parseRFC3339 (formatRFC3339 86399999999999 0) =
      some (86399000000000, 0) ∧
    (86399999999999 : Int) ≠ 86399000000000 :=
  ⟨rfl, by decide⟩

/-- C6 as amended: decoding an encoded timestamp reproduces the offset
exactly and the instant truncated to whole seconds; the round-trip is exact
precisely for whole-second instants.  (Hypotheses: the offset is a whole
number of minutes less than a day — all Go zone offsets the `hh:mm` layout
can carry — and the local year is in 0..9999, the range the four-digit year
verb prints.) -/
theorem c6_roundtrip_truncates (t off : Int) (h60 : off % 60 = 0)
    (hR : off.natAbs < 86400) (hy0 : 0 ≤ localYear t off)
    (hy1 : localYear t off < 10000) :
    parseRFC3339 (formatRFC3339 t off) =
      some (nsPerSec * (t / nsPerSec), off) ∧
    (nsPerSec * (t / nsPerSec) = t ↔ t % nsPerSec = 0) := by
  refine ⟨parse_format_roundtrip t off h60 hR hy0 hy1, ?_⟩
  simp only [nsPerSec]
  omega

/-- Witness for C6 as amended, at the splitter-produced end-of-day instant
in a non-UTC fixed zone. -/
theorem c6_roundtrip_truncates_witness :
    ((-18000 : Int) % 60 = 0 ∧ (-18000 : Int).natAbs < 86400 ∧
      0 ≤ localYear 86399999999999 (-18000) ∧
      localYear 86399999999999 (-18000) < 10000) ∧
    (parseRFC3339 (formatRFC3339 86399999999999 (-18000)) =
      some (nsPerSec * (86399999999999 / nsPerSec), -18000) ∧
    (nsPerSec * ((86399999999999 : Int) / nsPerSec) = 86399999999999 ↔
      (86399999999999 : Int) % nsPerSec = 0)) :=
  ⟨⟨by decide, by decide, by decide, by decide⟩,
    c6_roundtrip_truncates 86399999999999 (-18000) (by decide) (by decide)
      (by decide) (by decide)⟩

/-- C9: the first empty title field terminates the title chain — fields
after it, empty or not, contribute no hierarchy levels: the chain walk on
`a ++ "" :: b` equals the chain walk on `a`. -/
theorem c9_empty_terminates_chain (f : Forest) (d : Int) (a b : List String)
    (h : "" ∉ a) :
    processChain f (a ++ "" :: b) d = processChain f a d :=
  processChain_stops_at_empty d b a h f

/-- Witness for C9: a non-empty title after an empty field is ignored. -/
theorem c9_empty_terminates_chain_witness :
    "" ∉ ["A"] ∧
    processChain [] (["A"] ++ "" :: ["X"]) 5 = processChain [] ["A"] 5 :=
  ⟨by decide, c9_empty_terminates_chain [] 5 ["A"] ["X"] (by decide)⟩

/-- Concrete evaluation of the splitter on a same-day afternoon interval. -/
theorem splitDays_concrete :
    splitDays 40000000000000 41000000000000 0 =
      [(40000000000000, 41000000000000)] := by
  simp [splitDays, splitGo_unfold, nextDayStart, localDay, nsPerDay, nsPerSec]

/-- C7 counterexample: appending a two-title session to a file whose header
declares a single title column writes a data row with 4 fields while the
header still declares 1 title column (2 + N = 3): rows deeper than the
header exceed the header's width instead of being capped or the header
being rewritten. -/
theorem c7_counterexample :
    headerTitleCount (appendLog priorFile ["A", "B"] 40000000000000
      41000000000000 0) = 1 ∧
    ((appendLog priorFile ["A", "B"] 40000000000000 41000000000000 0).getD 2
      []).length = 4 := by
  constructor
  · simp [appendLog, priorFile, headerTitleCount, splitDays_concrete]
  · simp [appendLog, priorFile, headerTitleCount, splitDays_concrete, max_def]

/-- C7 as amended: an append to a nonempty file leaves the existing records
untouched and appends rows of exactly `2 + max(L, N)` fields, where `L` is
the session's chain length and `N` the header's declared title-column
count: when `L ≤ N` the rows are padded to the header's width `2 + N`, but
when `L > N` the rows carry `2 + L` fields, exceeding the header's declared
width. -/
theorem c7_append_widths (file : List (List String)) (titles : List String)
    (s e off : Int) (hne : file ≠ []) :
    (appendLog file titles s e off).take file.length = file ∧
    ∀ r ∈ (appendLog file titles s e off).drop file.length,
      (r.length : Int) = 2 + max (titles.length : Int) (headerTitleCount file) := by
  have hform : appendLog file titles s e off = file ++ (splitDays s e off).map
      (fun seg =>
        (formatRFC3339 seg.1 off :: formatRFC3339 seg.2 off :: titles) ++
        List.replicate
          ((2 + max (titles.length : Int) (headerTitleCount file)).toNat -
            (formatRFC3339 seg.1 off :: formatRFC3339 seg.2 off ::
              titles).length) "") := by
    rw [appendLog, if_neg hne, if_neg hne]
  rw [hform]
  constructor
  · exact List.take_left _ _
  · rw [List.drop_left]
    intro r hr
    rw [List.mem_map] at hr
    obtain ⟨seg, hseg, hfn⟩ := hr
    rw [← hfn]
    have hM : (titles.length : Int) ≤
        max (titles.length : Int) (headerTitleCount file) := le_max_left _ _
    simp only [List.length_append, List.length_cons, List.length_replicate]
    omega

/-- Witness for C7 as amended on a concrete nonempty file. -/
theorem c7_append_widths_witness :
    (priorFile ≠ []) ∧
    ((appendLog priorFile ["A", "B"] 40000000000000 41000000000000 0).take
      priorFile.length = priorFile ∧
    ∀ r ∈ (appendLog priorFile ["A", "B"] 40000000000000
      41000000000000 0).drop priorFile.length,
      (r.length : Int) = 2 + max ((["A", "B"] : List String).length : Int)
        (headerTitleCount priorFile)) :=
  ⟨by decide, c7_append_widths priorFile ["A", "B"] 40000000000000
    41000000000000 0 (by decide)⟩

/-- Keys of a cons cell. -/
theorem keysA_cons {α : Type} (p : String × α) (rest : List (String × α)) :
    keysA (p :: rest) = p.1 :: keysA rest := rfl

/-- A key is present exactly when lookup succeeds. -/
theorem mem_keysA_iff {α : Type} (f : List (String × α)) (k : String) :
    k ∈ keysA f ↔ (getA f k).isSome = true := by
  induction f with
  | nil => simp [keysA, getA]
  | cons p rest ih =>
    rw [keysA_cons, List.mem_cons, getA]
    by_cases h : p.1 = k
    · rw [if_pos h]
      constructor
      · intro _
        rfl
      · intro _
        left
        exact h.symm
    · rw [if_neg h, ← ih]
      have hne : ¬(k = p.1) := fun he => h he.symm
      constructor
      · intro hc
        rcases hc with hc | hc
        · exact absurd hc hne
        · exact hc
      · intro hc
        right
        exact hc

/-- Writing an existing key keeps the key list. -/
theorem keysA_setA_mem {α : Type} (f : List (String × α)) (k : String)
    (v : α) : k ∈ keysA f → keysA (setA f k v) = keysA f := by
  induction f with
  | nil =>
    intro h
    simp [keysA] at h
  | cons p rest ih =>
    intro h
    rw [setA]
    by_cases hp : p.1 = k
    · rw [if_pos hp, keysA_cons, keysA_cons]
    · rw [if_neg hp, keysA_cons, keysA_cons]
      have hm : k ∈ keysA rest := by
        rw [keysA_cons, List.mem_cons] at h
        rcases h with h1 | h1
        · exact absurd h1.symm hp
        · exact h1
      rw [ih hm]

/-- Writing a new key appends it to the key list. -/
theorem keysA_setA_new {α : Type} (f : List (String × α)) (k : String)
    (v : α) : k ∉ keysA f → keysA (setA f k v) = keysA f ++ [k] := by
  induction f with
  | nil =>
    intro _
    rfl
  | cons p rest ih =>
    intro h
    rw [setA]
    by_cases hp : p.1 = k
    · exact absurd (by rw [keysA_cons, List.mem_cons]; left; exact hp.symm) h
    · rw [if_neg hp, keysA_cons, keysA_cons, List.cons_append]
      have hm : k ∉ keysA rest := by
        intro hmem
        exact h (by rw [keysA_cons, List.mem_cons]; right; exact hmem)
      rw [ih hm]

/-- A successful lookup identifies a bound pair. -/
theorem mem_of_getA {α : Type} (f : List (String × α)) (k : String) (v : α)
    (h : getA f k = some v) : (k, v) ∈ f := by
  induction f with
  | nil => simp [getA] at h
  | cons p rest ih =>
    rw [getA] at h
    by_cases hp : p.1 = k
    · rw [if_pos hp] at h
      injection h with h2
      have hpe : p = (k, v) := by
        rcases p with ⟨a, b⟩
        simp at hp h2
        rw [hp, h2]
      rw [← hpe]
      exact List.mem_cons_self _ _
    · rw [if_neg hp] at h
      exact List.mem_cons_of_mem _ (ih h)

/-- With distinct keys, every bound pair is the lookup result. -/
theorem getA_of_mem_nodup {α : Type} (f : List (String × α)) (k : String)
    (v : α) (hnd : (keysA f).Nodup) (h : (k, v) ∈ f) : getA f k = some v := by
  induction f with
  | nil => simp at h
  | cons p rest ih =>
    have hnd' : p.1 ∉ keysA rest ∧ (keysA rest).Nodup := by
      simpa [keysA, List.nodup_cons] using hnd
    rcases List.mem_cons.mp h with h1 | h1
    · rw [← h1, getA]
      simp
    · have hrest := ih hnd'.2 h1
      have hk : k ∈ keysA rest := by rw [mem_keysA_iff, hrest]; rfl
      have hp : ¬(p.1 = k) := fun he => hnd'.1 (he ▸ hk)
      rw [getA, if_neg hp]
      exact hrest

/-- Looked-up values are structurally smaller than the map. -/
theorem sizeOf_getA (f : Forest) (k : String) (n : TaskNode)
    (h : getA f k = some n) : sizeOf n < sizeOf f := by
  induction f with
  | nil => simp [getA] at h
  | cons p rest ih =>
    rw [getA] at h
    by_cases hp : p.1 = k
    · rw [if_pos hp] at h
      injection h with h
      subst h
      rcases p with ⟨ks, vs⟩
      simp
      omega
    · rw [if_neg hp] at h
      have := ih h
      simp
      omega

/-- Overwriting a key twice equals writing it once. -/
theorem setA_setA_same {α : Type} (f : List (String × α)) (k : String)
    (v w : α) : setA (setA f k v) k w = setA f k w := by
  induction f with
  | nil => simp [setA]
  | cons p rest ih =>
    rw [setA]
    by_cases hp : p.1 = k
    · rw [if_pos hp, setA, setA, if_pos hp, if_pos hp]
    · rw [if_neg hp, setA, setA, if_neg hp, if_neg hp, ih]

/-- Equivalent forests have the same key presence. -/
theorem ForestEquiv.isSome_eqF {f g : Forest} (h : ForestEquiv f g)
    (k : String) : (getA f k).isSome = (getA g k).isSome := by
  rcases h with ⟨f, g, hk, hv⟩
  have hm := hk.mem_iff (a := k)
  rw [mem_keysA_iff, mem_keysA_iff] at hm
  cases hf : (getA f k).isSome <;> cases hg : (getA g k).isSome <;> simp_all

/-- Reflexivity of the node/forest equivalences, by strong induction on
size. -/
theorem equiv_refl_aux : ∀ N : Nat,
    (∀ n : TaskNode, sizeOf n ≤ N → NodeEquiv n n) ∧
    (∀ f : Forest, sizeOf f ≤ N → ForestEquiv f f) := by
  intro N
  induction N using Nat.strong_induction_on with
  | _ N ih =>
    constructor
    · intro n hn
      rcases n with ⟨name, d, ch, t⟩
      refine NodeEquiv.intro _ _ rfl rfl rfl ?_
      have hlt : sizeOf ch < N := by
        simp [TaskNode.children] at hn ⊢
        omega
      exact (ih (sizeOf ch) hlt).2 ch le_rfl
    · intro f hf
      refine ForestEquiv.intro _ _ (List.Perm.refl _) ?_
      intro k nf ng h1 h2
      rw [h1] at h2
      injection h2 with h2
      subst h2
      have hs := sizeOf_getA f k nf h1
      exact (ih (sizeOf nf) (by omega)).1 nf le_rfl

/-- Reflexivity for nodes. -/
theorem NodeEquiv.nrfl (n : TaskNode) : NodeEquiv n n :=
  (equiv_refl_aux (sizeOf n)).1 n le_rfl

/-- Reflexivity for forests. -/
theorem ForestEquiv.frfl (f : Forest) : ForestEquiv f f :=
  (equiv_refl_aux (sizeOf f)).2 f le_rfl

/-- Symmetry of the node/forest equivalences. -/
theorem equiv_symm_aux : ∀ N : Nat,
    (∀ n m : TaskNode, sizeOf n ≤ N → NodeEquiv n m → NodeEquiv m n) ∧
    (∀ f g : Forest, sizeOf f ≤ N → ForestEquiv f g → ForestEquiv g f) := by
  intro N
  induction N using Nat.strong_induction_on with
  | _ N ih =>
    constructor
    · intro n m hn h
      rcases h with ⟨n, m, hname, hd, ht, hc⟩
      refine NodeEquiv.intro _ _ hname.symm hd.symm ht.symm ?_
      rcases n with ⟨name, d, ch, t⟩
      have hlt : sizeOf ch < N := by
        simp [TaskNode.children] at hn ⊢
        omega
      exact (ih (sizeOf ch) hlt).2 _ _ le_rfl hc
    · intro f g hf h
      rcases h with ⟨f, g, hk, hv⟩
      refine ForestEquiv.intro _ _ hk.symm ?_
      intro k ng nf h2 h1
      have hs := sizeOf_getA f k nf h1
      exact (ih (sizeOf nf) (by omega)).1 _ _ le_rfl (hv k nf ng h1 h2)

/-- Symmetry for forests. -/
theorem ForestEquiv.fsymm {f g : Forest} (h : ForestEquiv f g) :
    ForestEquiv g f :=
  (equiv_symm_aux (sizeOf f)).2 f g le_rfl h

/-- Transitivity of the node/forest equivalences. -/
theorem equiv_trans_aux : ∀ N : Nat,
    (∀ n m o : TaskNode, sizeOf n ≤ N → NodeEquiv n m → NodeEquiv m o →
      NodeEquiv n o) ∧
    (∀ f g h : Forest, sizeOf f ≤ N → ForestEquiv f g → ForestEquiv g h →
      ForestEquiv f h) := by
  intro N
  induction N using Nat.strong_induction_on with
  | _ N ih =>
    constructor
    · intro n m o hn h1 h2
      rcases h1 with ⟨n, m, hname1, hd1, ht1, hc1⟩
      rcases h2 with ⟨m, o, hname2, hd2, ht2, hc2⟩
      refine NodeEquiv.intro _ _ (hname1.trans hname2) (hd1.trans hd2)
        (ht1.trans ht2) ?_
      rcases n with ⟨name, d, ch, t⟩
      have hlt : sizeOf ch < N := by
        simp [TaskNode.children] at hn ⊢
        omega
      exact (ih (sizeOf ch) hlt).2 _ _ _ le_rfl hc1 hc2
    · intro f g h hf h1 h2
      rcases h1 with ⟨f, g, hk1, hv1⟩
      rcases h2 with ⟨g, h, hk2, hv2⟩
      refine ForestEquiv.intro _ _ (hk1.trans hk2) ?_
      intro k nf nh hsf hsh
      have hmid : (getA g k).isSome = true := by
        have hm := hk1.mem_iff (a := k)
        rw [mem_keysA_iff, mem_keysA_iff] at hm
        rw [← hm, hsf]
        rfl
      rcases Option.isSome_iff_exists.mp hmid with ⟨ng, hg⟩
      have hs := sizeOf_getA f k nf hsf
      exact (ih (sizeOf nf) (by omega)).1 _ _ _ le_rfl
        (hv1 k nf ng hsf hg) (hv2 k ng nh hg hsh)

/-- Transitivity for forests. -/
theorem ForestEquiv.ftrans {f g h : Forest} (h1 : ForestEquiv f g)
    (h2 : ForestEquiv g h) : ForestEquiv f h :=
  (equiv_trans_aux (sizeOf f)).2 f g h le_rfl h1 h2

/-- Reflexivity at the day level. -/
theorem DayEquiv.drfl (m : DayMap) : DayEquiv m m := by
  refine ⟨List.Perm.refl _, ?_⟩
  intro k f g h1 h2
  rw [h1] at h2
  injection h2 with h2
  subst h2
  exact ForestEquiv.frfl f

/-- Symmetry at the day level. -/
theorem DayEquiv.dsymm {m1 m2 : DayMap} (h : DayEquiv m1 m2) :
    DayEquiv m2 m1 := by
  refine ⟨h.1.symm, ?_⟩
  intro k f g h2 h1
  exact (h.2 k g f h1 h2).fsymm

/-- Transitivity at the day level. -/
theorem DayEquiv.dtrans {m1 m2 m3 : DayMap} (h1 : DayEquiv m1 m2)
    (h2 : DayEquiv m2 m3) : DayEquiv m1 m3 := by
  refine ⟨h1.1.trans h2.1, ?_⟩
  intro k f g hf hg
  have hmid : (getA m2 k).isSome = true := by
    have hm := h1.1.mem_iff (a := k)
    rw [mem_keysA_iff, mem_keysA_iff] at hm
    rw [← hm, hf]
    rfl
  rcases Option.isSome_iff_exists.mp hmid with ⟨fm, hfm⟩
  exact (h1.2 k f fm hf hfm).ftrans (h2.2 k fm g hfm hg)

/-- Field equality from node equivalence. -/
theorem NodeEquiv.name_eq {n m : TaskNode} (h : NodeEquiv n m) :
    n.name = m.name := by
  rcases h with ⟨n, m, hn, hd, ht, hc⟩
  exact hn

/-- Field equality from node equivalence. -/
theorem NodeEquiv.duration_eq {n m : TaskNode} (h : NodeEquiv n m) :
    n.duration = m.duration := by
  rcases h with ⟨n, m, hn, hd, ht, hc⟩
  exact hd

/-- Field equality from node equivalence. -/
theorem NodeEquiv.totalTime_eq {n m : TaskNode} (h : NodeEquiv n m) :
    n.totalTime = m.totalTime := by
  rcases h with ⟨n, m, hn, hd, ht, hc⟩
  exact ht

/-- Child equivalence from node equivalence. -/
theorem NodeEquiv.children_equiv {n m : TaskNode} (h : NodeEquiv n m) :
    ForestEquiv n.children m.children := by
  rcases h with ⟨n, m, hn, hd, ht, hc⟩
  exact hc

/-- Key multiset equality from forest equivalence. -/
theorem ForestEquiv.keys_perm {f g : Forest} (h : ForestEquiv f g) :
    (keysA f).Perm (keysA g) := by
  rcases h with ⟨f, g, hk, hv⟩
  exact hk

/-- Per-key node equivalence from forest equivalence. -/
theorem ForestEquiv.get_equiv {f g : Forest} (h : ForestEquiv f g)
    (k : String) {nf ng : TaskNode} (h1 : getA f k = some nf)
    (h2 : getA g k = some ng) : NodeEquiv nf ng := by
  rcases h with ⟨f, g, hk, hv⟩
  exact hv k nf ng h1 h2

/-- Writing equivalent nodes under the same key preserves forest
equivalence. -/
theorem setA_equiv {f g : Forest} (k : String) {v w : TaskNode}
    (h : ForestEquiv f g) (hvw : NodeEquiv v w) :
    ForestEquiv (setA f k v) (setA g k w) := by
  refine ForestEquiv.intro _ _ ?_ ?_
  · by_cases hm : k ∈ keysA f
    · have hmg : k ∈ keysA g := (h.keys_perm.mem_iff).mp hm
      rw [keysA_setA_mem f k v hm, keysA_setA_mem g k w hmg]
      exact h.keys_perm
    · have hmg : k ∉ keysA g := fun hm' => hm ((h.keys_perm.mem_iff).mpr hm')
      rw [keysA_setA_new f k v hm, keysA_setA_new g k w hmg]
      exact h.keys_perm.append_right _
  · intro k' nf ng h1 h2
    by_cases hk : k = k'
    · subst hk
      rw [getA_setA_same] at h1 h2
      injection h1 with h1
      injection h2 with h2
      rw [← h1, ← h2]
      exact hvw
    · rw [getA_setA_other _ _ _ _ hk] at h1 h2
      exact h.get_equiv k' h1 h2

/-- Writes under distinct keys commute up to forest equivalence (the two
orders append fresh keys in different positions). -/
theorem setA_comm_equiv (f : Forest) (k1 k2 : String) (v1 v2 : TaskNode)
    (hne : k1 ≠ k2) :
    ForestEquiv (setA (setA f k1 v1) k2 v2) (setA (setA f k2 v2) k1 v1) := by
  have hkeys : (keysA (setA (setA f k1 v1) k2 v2)).Perm
      (keysA (setA (setA f k2 v2) k1 v1)) := by
    by_cases h1 : k1 ∈ keysA f <;> by_cases h2 : k2 ∈ keysA f
    · have e1 : keysA (setA f k1 v1) = keysA f := keysA_setA_mem _ _ _ h1
      have e2 : keysA (setA f k2 v2) = keysA f := keysA_setA_mem _ _ _ h2
      rw [keysA_setA_mem _ _ _ (by rw [e1]; exact h2), e1,
          keysA_setA_mem _ _ _ (by rw [e2]; exact h1), e2]
    · have e1 : keysA (setA f k1 v1) = keysA f := keysA_setA_mem _ _ _ h1
      have e2 : keysA (setA f k2 v2) = keysA f ++ [k2] := keysA_setA_new _ _ _ h2
      have h2' : k2 ∉ keysA (setA f k1 v1) := by
        rw [e1]
        exact h2
      have h1' : k1 ∈ keysA (setA f k2 v2) := by
        rw [e2]
        exact List.mem_append_left _ h1
      rw [keysA_setA_new _ _ _ h2', e1, keysA_setA_mem _ _ _ h1', e2]
    · have e1 : keysA (setA f k1 v1) = keysA f ++ [k1] := keysA_setA_new _ _ _ h1
      have e2 : keysA (setA f k2 v2) = keysA f := keysA_setA_mem _ _ _ h2
      have h2' : k2 ∈ keysA (setA f k1 v1) := by
        rw [e1]
        exact List.mem_append_left _ h2
      have h1' : k1 ∉ keysA (setA f k2 v2) := by
        rw [e2]
        exact h1
      rw [keysA_setA_mem _ _ _ h2', e1, keysA_setA_new _ _ _ h1', e2]
    · have e1 : keysA (setA f k1 v1) = keysA f ++ [k1] := keysA_setA_new _ _ _ h1
      have e2 : keysA (setA f k2 v2) = keysA f ++ [k2] := keysA_setA_new _ _ _ h2
      have h2' : k2 ∉ keysA (setA f k1 v1) := by
        rw [e1]
        intro hm
        rcases List.mem_append.mp hm with hh | hh
        · exact h2 hh
        · exact hne (List.mem_singleton.mp hh).symm
      have h1' : k1 ∉ keysA (setA f k2 v2) := by
        rw [e2]
        intro hm
        rcases List.mem_append.mp hm with hh | hh
        · exact h1 hh
        · exact absurd (List.mem_singleton.mp hh) hne
      rw [keysA_setA_new _ _ _ h2', e1, keysA_setA_new _ _ _ h1', e2,
          List.append_assoc, List.append_assoc]
      exact List.Perm.append_left _ (List.Perm.swap' _ _ (List.Perm.refl _))
  refine ForestEquiv.intro _ _ hkeys ?_
  intro k nf ng ha hb
  by_cases hk2 : k2 = k
  · subst hk2
    rw [getA_setA_same] at ha
    rw [getA_setA_other _ _ _ _ hne, getA_setA_same] at hb
    injection ha with ha
    injection hb with hb
    rw [← ha, ← hb]
    exact NodeEquiv.nrfl _
  · rw [getA_setA_other _ _ _ _ hk2] at ha
    by_cases hk1 : k1 = k
    · subst hk1
      rw [getA_setA_same] at ha
      rw [getA_setA_same] at hb
      injection ha with ha
      injection hb with hb
      rw [← ha, ← hb]
      exact NodeEquiv.nrfl _
    · rw [getA_setA_other _ _ _ _ hk1] at ha
      rw [getA_setA_other _ _ _ _ hk1, getA_setA_other _ _ _ _ hk2] at hb
      rw [ha] at hb
      injection hb with hb
      rw [← hb]
      exact NodeEquiv.nrfl _

/-- The chain walk maps equivalent forests to equivalent forests. -/
theorem processChain_congr : ∀ (ts : List String) (d : Int) (f g : Forest),
    ForestEquiv f g → ForestEquiv (processChain f ts d) (processChain g ts d) := by
  intro ts
  induction ts with
  | nil =>
    intro d f g h
    rw [processChain, processChain]
    exact h
  | cons t rest ih =>
    intro d f g h
    rw [processChain, processChain]
    by_cases ht : t = ""
    · rw [if_pos ht, if_pos ht]
      exact h
    · rw [if_neg ht, if_neg ht]
      have hiso := h.isSome_eqF t
      rcases hgf : getA f t with _ | nf <;> rcases hgg : getA g t with _ | ng
      · exact setA_equiv t h (NodeEquiv.nrfl _)
      · rw [hgf, hgg] at hiso
        simp at hiso
      · rw [hgf, hgg] at hiso
        simp at hiso
      · have hnm := h.get_equiv t hgf hgg
        rcases nf with ⟨fn, fd, fc, ft⟩
        rcases ng with ⟨gn, gd, gc, gt⟩
        have hd : fd = gd := by
          simpa [TaskNode.duration] using hnm.duration_eq
        have htt : ft = gt := by
          simpa [TaskNode.totalTime] using hnm.totalTime_eq
        have hch : ForestEquiv fc gc := by
          have hc := hnm.children_equiv
          simpa [TaskNode.children] using hc
        refine setA_equiv t h (NodeEquiv.intro _ _ rfl ?_ ?_ ?_)
        · simp only [TaskNode.duration]
          rw [hd]
        · simp only [TaskNode.totalTime]
          rw [htt]
        · simp only [TaskNode.children]
          exact ih d _ _ hch

/-- One unfolding of the chain walk on a non-blank title. -/
theorem processChain_cons_unfold (f : Forest) (t : String) (rest : List String)
    (d : Int) (ht : ¬(t = "")) :
    processChain f (t :: rest) d = setA f t (stepNode f t rest d) := by
  rw [processChain, if_neg ht, stepNode]

/-- A step reading a freshly written key sees the written node. -/
theorem stepNode_setA_same (f : Forest) (t : String) (v : TaskNode)
    (rest : List String) (d : Int) :
    stepNode (setA f t v) t rest d =
      TaskNode.mk t (v.duration + d) (processChain v.children rest d)
        (v.totalTime + d) := by
  rw [stepNode, getA_setA_same]

/-- A step reading another key is unaffected by a write. -/
theorem stepNode_setA_other (f : Forest) (k k' : String) (v : TaskNode)
    (rest : List String) (d : Int) (h : k ≠ k') :
    stepNode (setA f k v) k' rest d = stepNode f k' rest d := by
  rw [stepNode, stepNode, getA_setA_other _ _ _ _ h]

/-- Two chain walks commute up to forest equivalence: the forest built by
processing session `a` then session `b` has the same nodes with the same
durations as processing `b` then `a`. -/
theorem processChain_comm : ∀ (a b : List String) (da db : Int) (f : Forest),
    ForestEquiv (processChain (processChain f a da) b db)
      (processChain (processChain f b db) a da) := by
  intro a
  induction a with
  | nil =>
    intro b da db f
    exact ForestEquiv.frfl (processChain f b db)
  | cons ta ra ih =>
    intro b da db f
    by_cases hta : ta = ""
    · subst hta
      exact ForestEquiv.frfl (processChain f b db)
    · rcases b with _ | ⟨tb, rb⟩
      · exact ForestEquiv.frfl (processChain f (ta :: ra) da)
      · by_cases htb : tb = ""
        · subst htb
          exact ForestEquiv.frfl (processChain f (ta :: ra) da)
        · by_cases hkey : ta = tb
          · subst hkey
            rw [processChain_cons_unfold f ta ra da hta,
              processChain_cons_unfold f ta rb db hta,
              processChain_cons_unfold _ ta rb db hta,
              processChain_cons_unfold _ ta ra da hta,
              stepNode_setA_same, stepNode_setA_same,
              setA_setA_same, setA_setA_same]
            refine setA_equiv ta (ForestEquiv.frfl f)
              (NodeEquiv.intro _ _ rfl ?_ ?_ ?_)
            · simp only [TaskNode.duration, stepNode]
              ring
            · simp only [TaskNode.totalTime, stepNode]
              ring
            · simp only [TaskNode.children, stepNode]
              exact ih rb da db _
          · rw [processChain_cons_unfold f ta ra da hta,
              processChain_cons_unfold _ tb rb db htb,
              stepNode_setA_other _ _ _ _ _ _ hkey,
              processChain_cons_unfold f tb rb db htb,
              processChain_cons_unfold _ ta ra da hta,
              stepNode_setA_other _ _ _ _ _ _ (fun he => hkey he.symm)]
            exact setA_comm_equiv f ta tb _ _ hkey

/-- A record with fewer than 3 fields leaves the day map unchanged. -/
theorem stepR_skip3 (acc : DayMap) (r : List String) (h : r.length < 3) :
    stepR acc r = acc := by
  show (processRecord acc 0 r).1 = acc
  rw [processRecord, if_pos h]

/-- A record whose start time does not parse leaves the day map
unchanged. -/
theorem stepR_badStart (acc : DayMap) (r : List String)
    (h3 : ¬r.length < 3) (hp : parseRFC3339 (r.getD 0 "") = none) :
    stepR acc r = acc := by
  show (processRecord acc 0 r).1 = acc
  rw [processRecord, if_neg h3, hp]

/-- A record whose duration field does not parse leaves the day map
unchanged. -/
theorem stepR_badDur (acc : DayMap) (r : List String) (s o : Int)
    (h3 : ¬r.length < 3) (hp : parseRFC3339 (r.getD 0 "") = some (s, o))
    (ha : atoi (r.getD 2 "") = none) : stepR acc r = acc := by
  show (processRecord acc 0 r).1 = acc
  rw [processRecord, if_neg h3, hp, ha]

/-- A valid record walks its title chain into the forest of its local start
date. -/
theorem stepR_valid (acc : DayMap) (r : List String) (s o dsec : Int)
    (h3 : ¬r.length < 3) (hp : parseRFC3339 (r.getD 0 "") = some (s, o))
    (ha : atoi (r.getD 2 "") = some dsec) :
    stepR acc r = setA acc (formatDateOnly s o)
      (processChain (dayForest acc (formatDateOnly s o)) (r.drop 3)
        (wrap64 (dsec * nsPerSec))) := by
  show (processRecord acc 0 r).1 = _
  rw [processRecord, if_neg h3, hp, ha]
  rfl

/-- Every record either leaves every day map unchanged or writes one date
key with a chain walk on that date's forest. -/
theorem stepR_cases (r : List String) :
    (∀ acc, stepR acc r = acc) ∨
    ∃ d ts u, ∀ acc : DayMap, stepR acc r =
      setA acc d (processChain (dayForest acc d) ts u) := by
  by_cases h3 : r.length < 3
  · exact Or.inl (fun acc => stepR_skip3 acc r h3)
  · rcases hp : parseRFC3339 (r.getD 0 "") with _ | ⟨s, o⟩
    · exact Or.inl (fun acc => stepR_badStart acc r h3 hp)
    · rcases ha : atoi (r.getD 2 "") with _ | dsec
      · exact Or.inl (fun acc => stepR_badDur acc r s o h3 hp ha)
      · exact Or.inr ⟨formatDateOnly s o, r.drop 3, wrap64 (dsec * nsPerSec),
          fun acc => stepR_valid acc r s o dsec h3 hp ha⟩

/-- The record loop's day map ignores the record index. -/
theorem processRecord_fst (acc : DayMap) (i : Nat) (r : List String) :
    (processRecord acc i r).1 = stepR acc r := by
  by_cases h3 : r.length < 3
  · rw [stepR_skip3 acc r h3, processRecord, if_pos h3]
  · rcases hp : parseRFC3339 (r.getD 0 "") with _ | ⟨s, o⟩
    · rw [stepR_badStart acc r h3 hp, processRecord, if_neg h3, hp]
    · rcases ha : atoi (r.getD 2 "") with _ | dsec
      · rw [stepR_badDur acc r s o h3 hp ha, processRecord, if_neg h3, hp, ha]
      · rw [stepR_valid acc r s o dsec h3 hp ha, processRecord, if_neg h3,
          hp, ha]
        rfl

/-- Equivalent day maps hold the same dates. -/
theorem DayEquiv.isSome_eqD {m1 m2 : DayMap} (h : DayEquiv m1 m2)
    (k : String) : (getA m1 k).isSome = (getA m2 k).isSome := by
  have hm := h.1.mem_iff (a := k)
  rw [mem_keysA_iff, mem_keysA_iff] at hm
  cases hf : (getA m1 k).isSome <;> cases hg : (getA m2 k).isSome <;> simp_all

/-- Equivalent day maps have equivalent forests under every date
(get-or-initialize view). -/
theorem dayForest_equiv {m1 m2 : DayMap} (h : DayEquiv m1 m2) (k : String) :
    ForestEquiv (dayForest m1 k) (dayForest m2 k) := by
  rw [dayForest, dayForest]
  have hiso := h.isSome_eqD k
  rcases h1 : getA m1 k with _ | f1 <;> rcases h2 : getA m2 k with _ | f2
  · exact ForestEquiv.frfl []
  · rw [h1, h2] at hiso
    simp at hiso
  · rw [h1, h2] at hiso
    simp at hiso
  · exact h.2 k f1 f2 h1 h2

/-- The stored forest after a write to the same date. -/
theorem dayForest_setA_same (m : DayMap) (k : String) (v : Forest) :
    dayForest (setA m k v) k = v := by
  rw [dayForest, getA_setA_same]

/-- The stored forest under another date is unaffected by a write. -/
theorem dayForest_setA_other (m : DayMap) (k k' : String) (v : Forest)
    (h : k ≠ k') : dayForest (setA m k v) k' = dayForest m k' := by
  rw [dayForest, dayForest, getA_setA_other _ _ _ _ h]

/-- Writing equivalent forests under the same date preserves day-map
equivalence. -/
theorem setA_day_equiv {m1 m2 : DayMap} (k : String) {v w : Forest}
    (h : DayEquiv m1 m2) (hvw : ForestEquiv v w) :
    DayEquiv (setA m1 k v) (setA m2 k w) := by
  refine ⟨?_, ?_⟩
  · by_cases hm : k ∈ keysA m1
    · have hmg : k ∈ keysA m2 := (h.1.mem_iff).mp hm
      rw [keysA_setA_mem m1 k v hm, keysA_setA_mem m2 k w hmg]
      exact h.1
    · have hmg : k ∉ keysA m2 := fun hm' => hm ((h.1.mem_iff).mpr hm')
      rw [keysA_setA_new m1 k v hm, keysA_setA_new m2 k w hmg]
      exact h.1.append_right _
  · intro k' f g h1 h2
    by_cases hk : k = k'
    · subst hk
      rw [getA_setA_same] at h1 h2
      injection h1 with h1
      injection h2 with h2
      rw [← h1, ← h2]
      exact hvw
    · rw [getA_setA_other _ _ _ _ hk] at h1 h2
      exact h.2 k' f g h1 h2

/-- Writes under distinct dates commute up to day-map equivalence. -/
theorem setA_day_comm (m : DayMap) (k1 k2 : String) (v1 v2 : Forest)
    (hne : k1 ≠ k2) :
    DayEquiv (setA (setA m k1 v1) k2 v2) (setA (setA m k2 v2) k1 v1) := by
  have hkeys : (keysA (setA (setA m k1 v1) k2 v2)).Perm
      (keysA (setA (setA m k2 v2) k1 v1)) := by
    by_cases h1 : k1 ∈ keysA m <;> by_cases h2 : k2 ∈ keysA m
    · have e1 : keysA (setA m k1 v1) = keysA m := keysA_setA_mem _ _ _ h1
      have e2 : keysA (setA m k2 v2) = keysA m := keysA_setA_mem _ _ _ h2
      rw [keysA_setA_mem _ _ _ (by rw [e1]; exact h2), e1,
          keysA_setA_mem _ _ _ (by rw [e2]; exact h1), e2]
    · have e1 : keysA (setA m k1 v1) = keysA m := keysA_setA_mem _ _ _ h1
      have e2 : keysA (setA m k2 v2) = keysA m ++ [k2] := keysA_setA_new _ _ _ h2
      have h2' : k2 ∉ keysA (setA m k1 v1) := by
        rw [e1]
        exact h2
      have h1' : k1 ∈ keysA (setA m k2 v2) := by
        rw [e2]
        exact List.mem_append_left _ h1
      rw [keysA_setA_new _ _ _ h2', e1, keysA_setA_mem _ _ _ h1', e2]
    · have e1 : keysA (setA m k1 v1) = keysA m ++ [k1] := keysA_setA_new _ _ _ h1
      have e2 : keysA (setA m k2 v2) = keysA m := keysA_setA_mem _ _ _ h2
      have h2' : k2 ∈ keysA (setA m k1 v1) := by
        rw [e1]
        exact List.mem_append_left _ h2
      have h1' : k1 ∉ keysA (setA m k2 v2) := by
        rw [e2]
        exact h1
      rw [keysA_setA_mem _ _ _ h2', e1, keysA_setA_new _ _ _ h1', e2]
    · have e1 : keysA (setA m k1 v1) = keysA m ++ [k1] := keysA_setA_new _ _ _ h1
      have e2 : keysA (setA m k2 v2) = keysA m ++ [k2] := keysA_setA_new _ _ _ h2
      have h2' : k2 ∉ keysA (setA m k1 v1) := by
        rw [e1]
        intro hm
        rcases List.mem_append.mp hm with hh | hh
        · exact h2 hh
        · exact hne (List.mem_singleton.mp hh).symm
      have h1' : k1 ∉ keysA (setA m k2 v2) := by
        rw [e2]
        intro hm
        rcases List.mem_append.mp hm with hh | hh
        · exact h1 hh
        · exact absurd (List.mem_singleton.mp hh) hne
      rw [keysA_setA_new _ _ _ h2', e1, keysA_setA_new _ _ _ h1', e2,
          List.append_assoc, List.append_assoc]
      exact List.Perm.append_left _ (List.Perm.swap' _ _ (List.Perm.refl _))
  refine ⟨hkeys, ?_⟩
  intro k f g ha hb
  by_cases hk2 : k2 = k
  · subst hk2
    rw [getA_setA_same] at ha
    rw [getA_setA_other _ _ _ _ hne, getA_setA_same] at hb
    injection ha with ha
    injection hb with hb
    rw [← ha, ← hb]
    exact ForestEquiv.frfl _
  · rw [getA_setA_other _ _ _ _ hk2] at ha
    by_cases hk1 : k1 = k
    · subst hk1
      rw [getA_setA_same] at ha
      rw [getA_setA_same] at hb
      injection ha with ha
      injection hb with hb
      rw [← ha, ← hb]
      exact ForestEquiv.frfl _
    · rw [getA_setA_other _ _ _ _ hk1] at ha
      rw [getA_setA_other _ _ _ _ hk1, getA_setA_other _ _ _ _ hk2] at hb
      rw [ha] at hb
      injection hb with hb
      rw [← hb]
      exact ForestEquiv.frfl _

/-- Processing a record maps equivalent day maps to equivalent day maps. -/
theorem stepR_congr (r : List String) {m1 m2 : DayMap} (h : DayEquiv m1 m2) :
    DayEquiv (stepR m1 r) (stepR m2 r) := by
  by_cases h3 : r.length < 3
  · rw [stepR_skip3 _ _ h3, stepR_skip3 _ _ h3]
    exact h
  · rcases hp : parseRFC3339 (r.getD 0 "") with _ | ⟨s, o⟩
    · rw [stepR_badStart _ _ h3 hp, stepR_badStart _ _ h3 hp]
      exact h
    · rcases ha : atoi (r.getD 2 "") with _ | dsec
      · rw [stepR_badDur _ _ _ _ h3 hp ha, stepR_badDur _ _ _ _ h3 hp ha]
        exact h
      · rw [stepR_valid _ _ _ _ _ h3 hp ha, stepR_valid _ _ _ _ _ h3 hp ha]
        exact setA_day_equiv _ h
          (processChain_congr _ _ _ _ (dayForest_equiv h _))

/-- Processing two records in either order yields equivalent day maps. -/
theorem stepR_comm (r1 r2 : List String) (m : DayMap) :
    DayEquiv (stepR (stepR m r1) r2) (stepR (stepR m r2) r1) := by
  rcases stepR_cases r1 with h1 | ⟨d1, t1, u1, h1⟩
  · rw [h1 m, h1 (stepR m r2)]
    exact DayEquiv.drfl _
  · rcases stepR_cases r2 with h2 | ⟨d2, t2, u2, h2⟩
    · rw [h2 (stepR m r1), h2 m]
      exact DayEquiv.drfl _
    · rw [h1 m, h2 m, h2, h1]
      by_cases hd : d1 = d2
      · subst hd
        rw [dayForest_setA_same, dayForest_setA_same, setA_setA_same,
          setA_setA_same]
        exact setA_day_equiv d1 (DayEquiv.drfl m)
          (processChain_comm t1 t2 u1 u2 (dayForest m d1))
      · rw [dayForest_setA_other _ _ _ _ hd,
          dayForest_setA_other _ _ _ _ (fun he => hd he.symm)]
        exact setA_day_comm m d1 d2 _ _ hd

/-- The record fold maps equivalent starting maps to equivalent results. -/
theorem foldl_stepR_congr : ∀ (l : List (List String)) {m1 m2 : DayMap},
    DayEquiv m1 m2 → DayEquiv (l.foldl stepR m1) (l.foldl stepR m2) := by
  intro l
  induction l with
  | nil =>
    intro m1 m2 h
    exact h
  | cons r rest ih =>
    intro m1 m2 h
    exact ih (stepR_congr r h)

/-- The record fold is invariant, up to day-map equivalence, under
permutation of the records. -/
theorem foldl_stepR_perm {l1 l2 : List (List String)} (hp : l1.Perm l2) :
    ∀ {m1 m2 : DayMap}, DayEquiv m1 m2 →
      DayEquiv (l1.foldl stepR m1) (l2.foldl stepR m2) := by
  induction hp with
  | nil =>
    intro m1 m2 h
    exact h
  | cons x hp ih =>
    intro m1 m2 h
    exact ih (stepR_congr x h)
  | swap x y l =>
    intro m1 m2 h
    exact foldl_stepR_congr l
      ((stepR_comm y x m1).dtrans (stepR_congr y (stepR_congr x h)))
  | trans hp1 hp2 ih1 ih2 =>
    intro m1 m2 h
    exact (ih1 (DayEquiv.drfl m1)).dtrans (ih2 h)

/-- The record loop is the index-free fold. -/
theorem runRecords_fst : ∀ (l : List (List String)) (acc : DayMap) (i : Nat),
    (runRecords acc i l).1 = l.foldl stepR acc := by
  intro l
  induction l with
  | nil =>
    intro acc i
    rfl
  | cons r rest ih =>
    intro acc i
    show (runRecords (processRecord acc i r).1 (i + 1) rest).1 = _
    rw [ih, processRecord_fst]
    rfl

/-- Aggregation is the fold of the data records from the empty map. -/
theorem aggregate_foldl (records : List (List String)) :
    aggregate records = (records.drop 1).foldl stepR [] := by
  rw [aggregate, runRecords_fst]

/-- Permuting the data records yields an equivalent aggregated day map. -/
theorem aggregate_perm (hdr : List String) {rs1 rs2 : List (List String)}
    (hp : rs1.Perm rs2) :
    DayEquiv (aggregate (hdr :: rs1)) (aggregate (hdr :: rs2)) := by
  rw [aggregate_foldl, aggregate_foldl]
  exact foldl_stepR_perm hp (DayEquiv.drfl [])

/-- Key distinctness from forest well-formedness. -/
theorem ForestWF.nodup {f : Forest} (h : ForestWF f) : (keysA f).Nodup := by
  rcases h with ⟨f, hnd, hch⟩
  exact hnd

/-- Child well-formedness from forest well-formedness. -/
theorem ForestWF.child {f : Forest} (h : ForestWF f) {k : String}
    {n : TaskNode} (hg : getA f k = some n) : ForestWF n.children := by
  rcases h with ⟨f, hnd, hch⟩
  exact hch k n hg

/-- The empty forest is well-formed. -/
theorem ForestWF_nil : ForestWF [] := by
  refine ForestWF.intro _ (by simp [keysA]) ?_
  intro k n h
  simp [getA] at h

/-- Writes keep keys distinct. -/
theorem nodup_setA {α : Type} (f : List (String × α)) (k : String) (v : α)
    (h : (keysA f).Nodup) : (keysA (setA f k v)).Nodup := by
  by_cases hm : k ∈ keysA f
  · rw [keysA_setA_mem _ _ _ hm]
    exact h
  · rw [keysA_setA_new _ _ _ hm]
    simp [List.nodup_append, h, hm]

/-- Children of a chain step on a fresh title. -/
theorem stepNode_children_none (f : Forest) (t : String) (rest : List String)
    (d : Int) (h : getA f t = none) :
    (stepNode f t rest d).children = processChain [] rest d := by
  rw [stepNode, h]
  rfl

/-- Children of a chain step on an existing title. -/
theorem stepNode_children_some (f : Forest) (t : String) (rest : List String)
    (d : Int) (n : TaskNode) (h : getA f t = some n) :
    (stepNode f t rest d).children = processChain n.children rest d := by
  rw [stepNode, h]
  rfl

/-- The chain walk keeps forests well-formed. -/
theorem processChain_keeps_WF (d : Int) : ∀ (ts : List String) (f : Forest),
    ForestWF f → ForestWF (processChain f ts d) := by
  intro ts
  induction ts with
  | nil =>
    intro f h
    exact h
  | cons t rest ih =>
    intro f h
    by_cases ht : t = ""
    · rw [processChain, if_pos ht]
      exact h
    · rw [processChain_cons_unfold f t rest d ht]
      refine ForestWF.intro _ (nodup_setA _ _ _ h.nodup) ?_
      intro k n hg
      by_cases hk : t = k
      · subst hk
        rw [getA_setA_same] at hg
        injection hg with hg
        subst hg
        rcases hgf : getA f t with _ | m0
        · rw [stepNode_children_none f t rest d hgf]
          exact ih [] ForestWF_nil
        · rw [stepNode_children_some f t rest d m0 hgf]
          exact ih m0.children (h.child hgf)
      · rw [getA_setA_other _ _ _ _ hk] at hg
        exact h.child hg

/-- The empty day map is well-formed. -/
theorem DayWF_nil : DayWF [] := by
  refine ⟨by simp [keysA], ?_⟩
  intro k f h
  simp [getA] at h

/-- Processing a record keeps the day map well-formed. -/
theorem stepR_keeps_WF (r : List String) {m : DayMap} (h : DayWF m) :
    DayWF (stepR m r) := by
  rcases stepR_cases r with h1 | ⟨d, ts, u, h1⟩
  · rw [h1 m]
    exact h
  · rw [h1 m]
    refine ⟨nodup_setA _ _ _ h.1, ?_⟩
    intro k f hg
    by_cases hk : d = k
    · subst hk
      rw [getA_setA_same] at hg
      injection hg with hg
      subst hg
      refine processChain_keeps_WF u ts _ ?_
      rw [dayForest]
      rcases hgm : getA m d with _ | f0
      · exact ForestWF_nil
      · exact h.2 d f0 hgm
    · rw [getA_setA_other _ _ _ _ hk] at hg
      exact h.2 k f hg

/-- The record fold keeps the day map well-formed. -/
theorem foldl_stepR_WF : ∀ (l : List (List String)) (m : DayMap),
    DayWF m → DayWF (l.foldl stepR m) := by
  intro l
  induction l with
  | nil =>
    intro m h
    exact h
  | cons r rest ih =>
    intro m h
    exact ih _ (stepR_keeps_WF r h)

/-- Aggregated day maps are well-formed. -/
theorem aggregate_WF (records : List (List String)) :
    DayWF (aggregate records) := by
  rw [aggregate_foldl]
  exact foldl_stepR_WF _ _ DayWF_nil

/-- Two lists of bindings drawn from equivalent well-formed forests with
identical key sequences are aligned. -/
theorem aligned_of (f g : Forest) (hf : ForestWF f) (hg : ForestWF g)
    (hfe : ForestEquiv f g) :
    ∀ (lf lg : Forest), lf.map Prod.fst = lg.map Prod.fst →
      (∀ p ∈ lf, getA f p.1 = some p.2) →
      (∀ p ∈ lg, getA g p.1 = some p.2) → Aligned lf lg := by
  intro lf
  induction lf with
  | nil =>
    intro lg hmap hlf hlg
    cases lg with
    | nil => exact Aligned.nil
    | cons q lq => exact absurd hmap (by simp)
  | cons p lp ih =>
    intro lg hmap hlf hlg
    cases lg with
    | nil => exact absurd hmap (by simp)
    | cons q lq =>
      rcases p with ⟨k, v⟩
      rcases q with ⟨k', w⟩
      simp only [List.map_cons] at hmap
      injection hmap with hk hrest
      subst hk
      have hgv : getA f k = some v := hlf (k, v) (List.mem_cons_self _ _)
      have hgw : getA g k = some w := hlg (k, w) (List.mem_cons_self _ _)
      refine Aligned.cons k v w lp lq (hfe.get_equiv k hgv hgw)
        (hf.child hgv) (hg.child hgw) ?_
      exact ih lq hrest (fun p hp => hlf p (List.mem_cons_of_mem _ hp))
        (fun p hp => hlg p (List.mem_cons_of_mem _ hp))

/-- Sorting two equivalent well-formed forests by key yields aligned
binding lists: the sorted key sequences agree, and with distinct keys each
binding is the lookup value. -/
theorem aligned_sort (f g : Forest) (hf : ForestWF f) (hg : ForestWF g)
    (hfe : ForestEquiv f g) :
    Aligned (f.insertionSort (fun a b => a.1 ≤ b.1))
      (g.insertionSort (fun a b => a.1 ≤ b.1)) := by
  haveI hto : IsTotal (String × TaskNode) (fun a b => a.1 ≤ b.1) :=
    ⟨fun a b => le_total a.1 b.1⟩
  haveI htr : IsTrans (String × TaskNode) (fun a b => a.1 ≤ b.1) :=
    ⟨fun a b c hab hbc => le_trans hab hbc⟩
  have hpf := List.perm_insertionSort (fun a b : String × TaskNode => a.1 ≤ b.1) f
  have hpg := List.perm_insertionSort (fun a b : String × TaskNode => a.1 ≤ b.1) g
  have hsf := List.sorted_insertionSort (fun a b : String × TaskNode => a.1 ≤ b.1) f
  have hsg := List.sorted_insertionSort (fun a b : String × TaskNode => a.1 ≤ b.1) g
  have hmf : ((f.insertionSort (fun a b => a.1 ≤ b.1)).map Prod.fst).Sorted
      (fun a b => a ≤ b) := List.Pairwise.map Prod.fst (fun a b h => h) hsf
  have hmg : ((g.insertionSort (fun a b => a.1 ≤ b.1)).map Prod.fst).Sorted
      (fun a b => a ≤ b) := List.Pairwise.map Prod.fst (fun a b h => h) hsg
  have hkp : ((f.insertionSort (fun a b => a.1 ≤ b.1)).map Prod.fst).Perm
      ((g.insertionSort (fun a b => a.1 ≤ b.1)).map Prod.fst) :=
    ((hpf.map Prod.fst).trans hfe.keys_perm).trans (hpg.map Prod.fst).symm
  have hmap := List.eq_of_perm_of_sorted hkp hmf hmg
  refine aligned_of f g hf hg hfe _ _ hmap ?_ ?_
  · intro p hp
    exact getA_of_mem_nodup f p.1 p.2 hf.nodup (hpf.mem_iff.mp hp)
  · intro p hp
    exact getA_of_mem_nodup g p.1 p.2 hg.nodup (hpg.mem_iff.mp hp)

/-- Unfolding of the `printSubtasks` loop body at the empty list. -/
theorem renderPairs_nil (ind : Nat) : renderPairs [] ind = "" := by
  rw [renderPairs.eq_def]

/-- Unfolding of the `printSubtasks` loop body at a binding. -/
theorem renderPairs_cons (k : String) (tk : TaskNode) (rest : Forest)
    (ind : Nat) :
    renderPairs ((k, tk) :: rest) ind =
      String.mk (List.replicate ind ' ') ++ k ++ ": " ++
        fmtHours tk.duration ++ " hs\n" ++
        renderSubtasks tk.children (ind + 2) ++ renderPairs rest ind := by
  rw [renderPairs.eq_def]

/-- Unfolding of `printSubtasks`. -/
theorem renderSubtasks_unfold (tasks : Forest) (ind : Nat) :
    renderSubtasks tasks ind = if tasks.isEmpty then ""
      else renderPairs (tasks.insertionSort (fun a b => a.1 ≤ b.1)) ind := by
  rw [renderSubtasks.eq_def]

/-- A node's children are smaller than any binding list holding the
node. -/
theorem sizeOf_children_lt_pair (k : String) (v : TaskNode) (l : Forest) :
    sizeOf v.children < sizeOf ((k, v) :: l) := by
  rcases v with ⟨nm, dr, ch, tt⟩
  simp only [TaskNode.children]
  simp only [List.cons.sizeOf_spec, Prod.mk.sizeOf_spec, TaskNode.mk.sizeOf_spec]
  omega

/-- A binding list's tail is smaller than the list. -/
theorem sizeOf_tail_lt (p : String × TaskNode) (l : Forest) :
    sizeOf l < sizeOf (p :: l) := by
  simp only [List.cons.sizeOf_spec]
  omega

/-- `printSubtasks` prints the same text on aligned binding lists and on
equivalent well-formed forests, by strong induction on size. -/
theorem render_aux : ∀ N : Nat,
    (∀ lf lg ind, sizeOf lf ≤ N → Aligned lf lg →
      renderPairs lf ind = renderPairs lg ind) ∧
    (∀ f g ind, sizeOf f ≤ N → ForestWF f → ForestWF g → ForestEquiv f g →
      renderSubtasks f ind = renderSubtasks g ind) := by
  intro N
  induction N using Nat.strong_induction_on with
  | _ N ih =>
    have hA : ∀ lf lg ind, sizeOf lf ≤ N → Aligned lf lg →
        renderPairs lf ind = renderPairs lg ind := by
      intro lf lg ind hsz hal
      revert hsz
      induction hal generalizing ind with
      | nil =>
        intro _
        rfl
      | cons k v w lf' lg' hvw hwv hww hal ihal =>
        intro hsz
        rw [renderPairs_cons, renderPairs_cons]
        have h2 : renderSubtasks v.children (ind + 2) =
            renderSubtasks w.children (ind + 2) := by
          have hlt : sizeOf v.children < N :=
            lt_of_lt_of_le (sizeOf_children_lt_pair k v lf') hsz
          exact (ih (sizeOf v.children) hlt).2 _ _ _ le_rfl hwv hww
            hvw.children_equiv
        have h3 : renderPairs lf' ind = renderPairs lg' ind :=
          ihal ind (le_trans (le_of_lt (sizeOf_tail_lt (k, v) lf')) hsz)
        rw [hvw.duration_eq, h2, h3]
    refine ⟨hA, ?_⟩
    intro f g ind hsz hf hg hfe
    have hlen : (keysA f).length = (keysA g).length := hfe.keys_perm.length_eq
    rcases f with _ | ⟨p, f'⟩ <;> rcases g with _ | ⟨q, g'⟩
    · rfl
    · simp [keysA] at hlen
    · simp [keysA] at hlen
    · rw [renderSubtasks_unfold, renderSubtasks_unfold,
        if_neg (by simp), if_neg (by simp)]
      refine hA _ _ ind ?_ (aligned_sort _ _ hf hg hfe)
      rw [List.Perm.sizeOf_eq_sizeOf (List.perm_insertionSort _ _)]
      exact hsz

/-- `printSubtasks` prints the same text on equivalent well-formed
forests. -/
theorem renderSubtasks_congr (f g : Forest) (ind : Nat) (hf : ForestWF f)
    (hg : ForestWF g) (hfe : ForestEquiv f g) :
    renderSubtasks f ind = renderSubtasks g ind :=
  (render_aux (sizeOf f)).2 f g ind le_rfl hf hg hfe

/-- The stored total time of a present key. -/
theorem totOf_eq (f : Forest) (k : String) (n : TaskNode)
    (h : getA f k = some n) : totOf f k = n.totalTime := by
  rw [totOf, h]

/-- Mapping agreeing functions over a list gives equal images. -/
theorem map_congr_mem {α β : Type} (l : List α) (f g : α → β)
    (h : ∀ a ∈ l, f a = g a) : l.map f = l.map g := by
  induction l with
  | nil => rfl
  | cons a l ih =>
    rw [List.map_cons, List.map_cons, h a (List.mem_cons_self _ _),
      ih (fun b hb => h b (List.mem_cons_of_mem _ hb))]

/-- With distinct keys, the entrywise total times are the per-key total
times. -/
theorem map_totalTime_eq (f : Forest) (hnd : (keysA f).Nodup) :
    f.map (fun p => p.2.totalTime) = (keysA f).map (totOf f) := by
  show f.map (fun p => p.2.totalTime) = (f.map Prod.fst).map (totOf f)
  rw [List.map_map]
  apply map_congr_mem
  intro p hp
  show p.2.totalTime = totOf f p.1
  rw [totOf_eq f p.1 p.2 (getA_of_mem_nodup f p.1 p.2 hnd hp)]

/-- Equivalent well-formed forests carry the same root total. -/
theorem sumTotalTime_congr {f g : Forest} (hf : ForestWF f) (hg : ForestWF g)
    (hfe : ForestEquiv f g) : sumTotalTime f = sumTotalTime g := by
  rw [sumTotalTime, sumTotalTime, map_totalTime_eq f hf.nodup,
    map_totalTime_eq g hg.nodup]
  have h1 : (keysA g).map (totOf g) = (keysA g).map (totOf f) := by
    apply map_congr_mem
    intro k hk
    have hkf : k ∈ keysA f := hfe.keys_perm.mem_iff.mpr hk
    rcases Option.isSome_iff_exists.mp ((mem_keysA_iff f k).mp hkf) with ⟨nf, hnf⟩
    rcases Option.isSome_iff_exists.mp ((mem_keysA_iff g k).mp hk) with ⟨ng, hng⟩
    rw [totOf_eq g k ng hng, totOf_eq f k nf hnf]
    exact ((hfe.get_equiv k hnf hng).totalTime_eq).symm
  rw [h1]
  exact List.Perm.sum_eq (hfe.keys_perm.map (totOf f))

/-- The root lines of a date block agree on aligned binding lists. -/
theorem map_roots_aligned : ∀ (lf lg : Forest), Aligned lf lg →
    lf.map (fun p => "  " ++ p.1 ++ ": " ++ fmtHours p.2.totalTime ++
      " hs\n" ++ renderSubtasks p.2.children 4) =
    lg.map (fun p => "  " ++ p.1 ++ ": " ++ fmtHours p.2.totalTime ++
      " hs\n" ++ renderSubtasks p.2.children 4) := by
  intro lf lg hal
  induction hal with
  | nil => rfl
  | cons k v w lf' lg' hvw hwv hww hal ih =>
    rw [List.map_cons, List.map_cons, ih]
    congr 1
    show "  " ++ k ++ ": " ++ fmtHours v.totalTime ++ " hs\n" ++
        renderSubtasks v.children 4 =
      "  " ++ k ++ ": " ++ fmtHours w.totalTime ++ " hs\n" ++
        renderSubtasks w.children 4
    rw [hvw.totalTime_eq,
      renderSubtasks_congr _ _ _ hwv hww hvw.children_equiv]

/-- A date block for an absent date. -/
theorem renderDate_none (m : DayMap) (date : String)
    (h : getA m date = none) : renderDate m date = "" := by
  rw [renderDate, h]

/-- A date block for a present date. -/
theorem renderDate_some (m : DayMap) (date : String) (tasks : Forest)
    (h : getA m date = some tasks) :
    renderDate m date = "Date: " ++ date ++ "\nTotal: " ++
      fmtHours (sumTotalTime tasks) ++ " hs\n" ++
      String.join ((tasks.insertionSort (fun a b => a.1 ≤ b.1)).map
        (fun p => "  " ++ p.1 ++ ": " ++ fmtHours p.2.totalTime ++
          " hs\n" ++ renderSubtasks p.2.children 4)) ++ "\n" := by
  rw [renderDate, h]

/-- One date block prints the same text on equivalent well-formed day
maps. -/
theorem renderDate_congr {m1 m2 : DayMap} (hw1 : DayWF m1) (hw2 : DayWF m2)
    (h : DayEquiv m1 m2) (date : String) :
    renderDate m1 date = renderDate m2 date := by
  have hiso := h.isSome_eqD date
  rcases h1 : getA m1 date with _ | f1 <;> rcases h2 : getA m2 date with _ | f2
  · rw [renderDate_none m1 date h1, renderDate_none m2 date h2]
  · rw [h1, h2] at hiso
    simp at hiso
  · rw [h1, h2] at hiso
    simp at hiso
  · have hf1 : ForestWF f1 := hw1.2 date f1 h1
    have hf2 : ForestWF f2 := hw2.2 date f2 h2
    have hfe : ForestEquiv f1 f2 := h.2 date f1 f2 h1 h2
    rw [renderDate_some m1 date f1 h1, renderDate_some m2 date f2 h2,
      sumTotalTime_congr hf1 hf2 hfe,
      congrArg String.join (map_roots_aligned _ _ (aligned_sort f1 f2 hf1 hf2 hfe))]

/-- The whole report is unchanged, character for character, by permuting
the data records. -/
theorem render_perm (hdr : List String) {rs1 rs2 : List (List String)}
    (hp : rs1.Perm rs2) : render (hdr :: rs1) = render (hdr :: rs2) := by
  rw [render, render]
  have hlen : rs1.length = rs2.length := hp.length_eq
  by_cases hl : (hdr :: rs1).length ≤ 1
  · have hl2 : (hdr :: rs2).length ≤ 1 := by
      simp only [List.length_cons] at hl ⊢
      omega
    rw [if_pos hl, if_pos hl2]
  · have hl2 : ¬(hdr :: rs2).length ≤ 1 := by
      simp only [List.length_cons] at hl ⊢
      omega
    rw [if_neg hl, if_neg hl2]
    have hde := aggregate_perm hdr hp
    have hw1 := aggregate_WF (hdr :: rs1)
    have hw2 := aggregate_WF (hdr :: rs2)
    haveI hto : IsTotal String (fun a b => a ≤ b) := ⟨fun a b => le_total a b⟩
    haveI htr : IsTrans String (fun a b => a ≤ b) :=
      ⟨fun a b c hab hbc => le_trans hab hbc⟩
    haveI han : IsAntisymm String (fun a b => a ≤ b) :=
      ⟨fun a b hab hba => le_antisymm hab hba⟩
    have hkeys : (keysA (aggregate (hdr :: rs1))).insertionSort
          (fun a b => a ≤ b) =
        (keysA (aggregate (hdr :: rs2))).insertionSort (fun a b => a ≤ b) := by
      have hperm : ((keysA (aggregate (hdr :: rs1))).insertionSort
            (fun a b => a ≤ b)).Perm
          ((keysA (aggregate (hdr :: rs2))).insertionSort (fun a b => a ≤ b)) :=
        (List.perm_insertionSort _ _).trans
          (hde.1.trans (List.perm_insertionSort _ _).symm)
      exact List.eq_of_perm_of_sorted hperm (List.sorted_insertionSort _ _)
        (List.sorted_insertionSort _ _)
    rw [hkeys]
    exact congrArg String.join (map_congr_mem _ _ _
      (fun date _ => renderDate_congr hw1 hw2 hde date))

/-- Node lookup returns the same node data on equivalent forests at every
path. -/
theorem lookupNode_equiv {f g : Forest} (h : ForestEquiv f g) :
    ∀ path, Option.map nodeData (lookupNode f path) =
      Option.map nodeData (lookupNode g path) := by
  intro path
  induction path generalizing f g with
  | nil => rfl
  | cons t rest ih =>
    cases rest with
    | nil =>
      rw [lookupNode_single, lookupNode_single]
      have hiso := h.isSome_eqF t
      rcases h1 : getA f t with _ | nf <;> rcases h2 : getA g t with _ | ng
      · rfl
      · rw [h1, h2] at hiso
        simp at hiso
      · rw [h1, h2] at hiso
        simp at hiso
      · have hnm := h.get_equiv t h1 h2
        show some (nf.name, nf.duration, nf.totalTime) =
          some (ng.name, ng.duration, ng.totalTime)
        rw [hnm.name_eq, hnm.duration_eq, hnm.totalTime_eq]
    | cons t2 rest2 =>
      rw [lookupNode_cons_cons, lookupNode_cons_cons]
      have hiso := h.isSome_eqF t
      rcases h1 : getA f t with _ | nf <;> rcases h2 : getA g t with _ | ng
      · rfl
      · rw [h1, h2] at hiso
        simp at hiso
      · rw [h1, h2] at hiso
        simp at hiso
      · have hnm := h.get_equiv t h1 h2
        show Option.map nodeData (lookupNode nf.children (t2 :: rest2)) =
          Option.map nodeData (lookupNode ng.children (t2 :: rest2))
        exact ih hnm.children_equiv

/-- C8: aggregating the same session set twice, presented in any input
order, yields identical forest contents — every (date, title-path) lookup
returns the same name, duration and total time — and an identical rendered
report, character for character. -/
theorem c8_order_invariance (hdr : List String) (rs1 rs2 : List (List String))
    (hp : rs1.Perm rs2) :
    (∀ (date : String) (path : List String),
      Option.map nodeData (lookupPath (aggregate (hdr :: rs1)) date path) =
      Option.map nodeData (lookupPath (aggregate (hdr :: rs2)) date path)) ∧
    render (hdr :: rs1) = render (hdr :: rs2) := by
  have hde := aggregate_perm hdr hp
  constructor
  · intro date path
    rw [lookupPath, lookupPath]
    have hiso := hde.isSome_eqD date
    rcases h1 : getA (aggregate (hdr :: rs1)) date with _ | f1 <;>
      rcases h2 : getA (aggregate (hdr :: rs2)) date with _ | f2
    · rfl
    · rw [h1, h2] at hiso
      simp at hiso
    · rw [h1, h2] at hiso
      simp at hiso
    · show Option.map nodeData (lookupNode f1 path) =
        Option.map nodeData (lookupNode f2 path)
      exact lookupNode_equiv (hde.2 date f1 f2 h1 h2) path
  · exact render_perm hdr hp

/-- C8 witness: the two example sessions in both orders; their aggregated
`A` node agrees and the printed reports coincide. -/
theorem c8_order_invariance_witness :
    ([rowAB, rowAC] : List (List String)).Perm [rowAC, rowAB] ∧
    Option.map nodeData
        (lookupPath (aggregate (hdrExample :: [rowAB, rowAC]))
          "1970-01-01" ["A"]) =
      Option.map nodeData
        (lookupPath (aggregate (hdrExample :: [rowAC, rowAB]))
          "1970-01-01" ["A"]) ∧
    render (hdrExample :: [rowAB, rowAC]) =
      render (hdrExample :: [rowAC, rowAB]) :=
  ⟨List.Perm.swap rowAC rowAB [],
    (c8_order_invariance hdrExample [rowAB, rowAC] [rowAC, rowAB]
      (List.Perm.swap rowAC rowAB [])).1 "1970-01-01" ["A"],
    (c8_order_invariance hdrExample [rowAB, rowAC] [rowAC, rowAB]
      (List.Perm.swap rowAC rowAB [])).2⟩

/-- Duration written by a chain step on a fresh title. -/
theorem stepNode_duration_none (f : Forest) (t : String) (rest : List String)
    (d : Int) (h : getA f t = none) :
    (stepNode f t rest d).duration = 0 + d := by
  rw [stepNode, h]
  rfl

/-- Duration written by a chain step on an existing title. -/
theorem stepNode_duration_some (f : Forest) (t : String) (rest : List String)
    (d : Int) (n : TaskNode) (h : getA f t = some n) :
    (stepNode f t rest d).duration = n.duration + d := by
  rw [stepNode, h]
  rfl

/-- Total time written by a chain step on a fresh title. -/
theorem stepNode_totalTime_none (f : Forest) (t : String) (rest : List String)
    (d : Int) (h : getA f t = none) :
    (stepNode f t rest d).totalTime = 0 + d := by
  rw [stepNode, h]
  rfl

/-- Total time written by a chain step on an existing title. -/
theorem stepNode_totalTime_some (f : Forest) (t : String) (rest : List String)
    (d : Int) (n : TaskNode) (h : getA f t = some n) :
    (stepNode f t rest d).totalTime = n.totalTime + d := by
  rw [stepNode, h]
  rfl

/-- C1 as amended: processing one session increments both `Duration` and
`TotalTime` by the session's attributed duration at every node on the
session's title chain — every node addressed by a nonempty all-nonblank
leading segment `q` of the titles — over any prior forest (a node absent
before counts as 0), not only at the deepest node. -/
theorem c1_additivity_amended : ∀ (q : List String) (f : Forest) (d : Int)
    (rest : List String), q ≠ [] → (∀ t ∈ q, ¬(t = "")) →
    (lookupNode (processChain f (q ++ rest) d) q).map TaskNode.duration =
      some (((lookupNode f q).map TaskNode.duration).getD 0 + d) ∧
    (lookupNode (processChain f (q ++ rest) d) q).map TaskNode.totalTime =
      some (((lookupNode f q).map TaskNode.totalTime).getD 0 + d) := by
  intro q
  induction q with
  | nil =>
    intro f d rest hq hne
    exact absurd rfl hq
  | cons t q' ih =>
    intro f d rest hq hne
    have ht : ¬(t = "") := hne t (List.mem_cons_self _ _)
    rw [List.cons_append, processChain_cons_unfold f t (q' ++ rest) d ht]
    cases q' with
    | nil =>
      rw [lookupNode_single, lookupNode_single, getA_setA_same]
      rcases hg : getA f t with _ | n
      · constructor
        · simp only [Option.map_some', Option.map_none', Option.getD_none]
          rw [stepNode_duration_none f t ([] ++ rest) d hg]
        · simp only [Option.map_some', Option.map_none', Option.getD_none]
          rw [stepNode_totalTime_none f t ([] ++ rest) d hg]
      · constructor
        · simp only [Option.map_some', Option.getD_some]
          rw [stepNode_duration_some f t ([] ++ rest) d n hg]
        · simp only [Option.map_some', Option.getD_some]
          rw [stepNode_totalTime_some f t ([] ++ rest) d n hg]
    | cons t2 q'' =>
      have hq2 : (t2 :: q'') ≠ [] := by simp
      have hne2 : ∀ s ∈ t2 :: q'', ¬(s = "") :=
        fun s hs => hne s (List.mem_cons_of_mem _ hs)
      rw [lookupNode_cons_cons, lookupNode_cons_cons, getA_setA_same]
      rcases hg : getA f t with _ | n
      · simp only [Option.some_bind, Option.none_bind,
          stepNode_children_none f t ((t2 :: q'') ++ rest) d hg]
        have hih := ih ([] : Forest) d rest hq2 hne2
        rw [lookupNode_nil] at hih
        exact hih
      · simp only [Option.some_bind,
          stepNode_children_some f t ((t2 :: q'') ++ rest) d n hg]
        exact ih n.children d rest hq2 hne2

/-- C1 witness at the spec's example: after session `["A","B"]` of 1h, the
session `["A","C"]` of 2h raises A's `Duration` and `TotalTime` from their
prior values by 2h — to 3h, not leaving `Duration` at 0. -/
theorem c1_additivity_amended_witness :
    ((["A"] : List String) ≠ [] ∧
      (∀ t ∈ (["A"] : List String), ¬(t = ""))) ∧
    ((lookupNode (processChain (processChain [] ["A", "B"] (1 * nsPerHour))
        (["A"] ++ ["C"]) (2 * nsPerHour)) ["A"]).map TaskNode.duration =
      some (((lookupNode (processChain [] ["A", "B"] (1 * nsPerHour))
        ["A"]).map TaskNode.duration).getD 0 + 2 * nsPerHour) ∧
    (lookupNode (processChain (processChain [] ["A", "B"] (1 * nsPerHour))
        (["A"] ++ ["C"]) (2 * nsPerHour)) ["A"]).map TaskNode.totalTime =
      some (((lookupNode (processChain [] ["A", "B"] (1 * nsPerHour))
        ["A"]).map TaskNode.totalTime).getD 0 + 2 * nsPerHour)) ∧
    ((lookupNode (processChain [] ["A", "B"] (1 * nsPerHour)) ["A"]).map
      TaskNode.duration).getD 0 + 2 * nsPerHour = 3 * nsPerHour :=
  ⟨⟨by decide, by decide⟩,
    c1_additivity_amended ["A"] (processChain [] ["A", "B"] (1 * nsPerHour))
      (2 * nsPerHour) ["C"] (by decide) (by decide),
    by decide⟩

end Talogo
